import Mathlib

/-!
# A shallow embedding of the oxidian vault indexing engine

This file models, in Lean, the parts of the `oxidian` Rust crate that its
specification makes universally quantified claims about: the markdown task
parser (`src/parse/markdown.rs`), block-id extraction (`src/link_health.rs`),
link-resolution tie-breaking (`src/link_resolve.rs`), query sorting
(`src/query.rs`), the in-memory index with its reverse tag/link indexes
(`src/index.rs`), the watcher service's event application (`src/service.rs`),
the graph builder (`src/graph.rs`), and the fuzzy-search entry points
(`src/index.rs`).

Modelling conventions:

* Rust `&str` values are modelled as `String` or `List Char`; byte indexing
  in the Rust source is faithful at the `Char` level wherever the source only
  compares against ASCII literals before taking a slice.
* Vault-relative paths (`VaultPath`, a normalized `PathBuf`) are modelled as
  their non-empty list of components, `List String`; `PathBuf` ordering is
  component-wise lexicographic, which the model mirrors.
* `BTreeSet` becomes `Finset`, `HashMap`/`BTreeMap` become functions into
  `Option`, matching their extensional equality semantics.
* Unicode whitespace tests (`char::is_whitespace`) are modelled with Lean's
  `Char.isWhitespace` (the ASCII subset); no claim in scope distinguishes the
  two.
-/

namespace Oxidian


/-- `TaskStatus` from `src/index.rs`. -/
inductive TaskStatus where
  | Todo
  | Done
  | InProgress
  | Cancelled
  | Blocked
deriving DecidableEq, Repr

/-- Rust `str::trim_start` on a list of characters. -/
def trimStart (l : List Char) : List Char := l.dropWhile (·.isWhitespace)

/-! ## Task lines (`parse_task_line`, `src/parse/markdown.rs` 237-286) -/

/-- The unordered-marker branch of `parse_task_line`: strip `"- "`, `"* "`
or `"+ "` from the already left-trimmed line. -/
def stripUnorderedMarker : List Char → Option (List Char)
  | '-' :: ' ' :: r => some r
  | '*' :: ' ' :: r => some r
  | '+' :: ' ' :: r => some r
  | _ => none

/-- The ordered-marker branch of `parse_task_line`: a non-empty run of ASCII
digits, then `'.'` or `')'`, then a space. -/
def stripOrderedMarker (s : List Char) : Option (List Char) :=
  if (s.takeWhile (·.isDigit)).isEmpty then none
  else
    match s.dropWhile (·.isDigit) with
    | p :: ' ' :: r => if p = '.' ∨ p = ')' then some r else none
    | _ => none

/-- The `match mark` table inside `parse_task_line`. -/
def taskStatusOfMark : Char → Option TaskStatus
  | ' ' => some .Todo
  | 'x' => some .Done
  | 'X' => some .Done
  | '>' => some .InProgress
  | '-' => some .Cancelled
  | '?' => some .Blocked
  | _ => none

/-- The list-marker stage of `parse_task_line`: try the unordered markers
first, then the ordered ones, exactly as the `if let ... else` in the
source does. -/
def markerStripped (s : List Char) : Option (List Char) :=
  match stripUnorderedMarker s with
  | some r => some r
  | none => stripOrderedMarker s

/-- The `[X]` cell stage of `parse_task_line`: the source checks
`bytes.len() >= 3`, `bytes[0] == b'['`, `bytes[2] == b']'`, classifies the
mark, and takes `rest[3..].trim_start()` as the text — it does **not**
require a space after the cell. -/
def taskCell : List Char → Option (TaskStatus × List Char)
  | '[' :: mark :: ']' :: r =>
    match taskStatusOfMark mark with
    | some st => some (st, trimStart r)
    | none => none
  | _ => none

/-- `parse_task_line` from `src/parse/markdown.rs`: left-trim, strip a list
marker, then require a `[X]` cell. -/
def parse_task_line (line : List Char) : Option (TaskStatus × List Char) :=
  match markerStripped (trimStart line) with
  | none => none
  | some rest => taskCell rest

/-- An ordered list marker as the spec describes it: digits, then `'.'` or
`')'`, then a space. -/
def IsOrderedMarker (pre : List Char) : Prop :=
  ∃ ds p, pre = ds ++ [p, ' '] ∧ ds ≠ [] ∧ (∀ c ∈ ds, c.isDigit) ∧
    (p = '.' ∨ p = ')')

/-- A list marker as the spec describes it: `"- "`, `"* "`, `"+ "`, or an
ordered marker. -/
def IsTaskMarker (pre : List Char) : Prop :=
  pre = ['-', ' '] ∨ pre = ['*', ' '] ∨ pre = ['+', ' '] ∨ IsOrderedMarker pre

/-! ## Block ids (`parse_block_id`, `src/link_health.rs` 193-210) -/

/-- Split a line at its **last** `'^'`: returns the text before it and the
text after it (which therefore contains no `'^'`).  Mirrors
`line.rfind('^')` in the source. -/
def lastCaretSplit : List Char → Option (List Char × List Char)
  | [] => none
  | c :: rest =>
    match lastCaretSplit rest with
    | some (p, r) => some (c :: p, r)
    | none => if c = '^' then some ([], rest) else none

/-- `[A-Za-z0-9_-]`, the block-id alphabet. -/
def isBlockIdChar (c : Char) : Bool := c.isAlphanum || c = '-' || c = '_'

/-- The `if idx > 0 { ... }` guard of `parse_block_id`: the extraction is
blocked when a character precedes the `'^'` and it is not whitespace. -/
def prevBlocksId (pre : List Char) : Bool :=
  match pre.getLast? with
  | some prev => ! prev.isWhitespace
  | none => false

/-- The body of `parse_block_id` after the `rfind`: fail if the `'^'` is the
last character, or if the character directly before it exists and is not
whitespace; otherwise return the following run of `[A-Za-z0-9_-]` characters
(failing when that run is empty). -/
def blockIdAfterCaret (pre rest : List Char) : Option (List Char) :=
  if rest.isEmpty then none
  else if prevBlocksId pre then none
  else if (rest.takeWhile isBlockIdChar).isEmpty then none
  else some (rest.takeWhile isBlockIdChar)

/-- `parse_block_id` from `src/link_health.rs`: find the last `'^'` of the
line (`line.rfind`), then apply the checks above. -/
def parse_block_id (line : List Char) : Option (List Char) :=
  match lastCaretSplit line with
  | none => none
  | some (pre, rest) => blockIdAfterCaret pre rest

/-! ## Ordering utilities

Rust's derived `Ord` implementations are modelled by explicit
`Ordering`-valued comparison functions.  `IsLawfulCmp` captures the three
facts every such derived comparator satisfies and that the proofs below
need: antisymmetry of the result under swapping the arguments, transitivity
of `lt`, and substitutivity of `eq`. -/

/-- A comparator behaving like a total preorder's three-way compare. -/
structure IsLawfulCmp {α : Type} (cmp : α → α → Ordering) : Prop where
  swap_eq : ∀ a b, cmp b a = (cmp a b).swap
  lt_trans : ∀ {a b c}, cmp a b = .lt → cmp b c = .lt → cmp a c = .lt
  eq_left : ∀ {a b c}, cmp a b = .eq → cmp a c = cmp b c

/-- Rust's `sort_by(cmp)` sorts ascending with respect to
`cmp a b ≠ Greater`; this is the boolean "less or equal" used for
`mergeSort`. -/
def cmpLe {α : Type} (cmp : α → α → Ordering) (a b : α) : Bool :=
  cmp a b != Ordering.gt

/-- Rust's stable `sort_by(cmp)`, modelled by insertion sort (the claims
depend only on the ordering contract of a stable sort, not the algorithm). -/
def sortBy {α : Type} (le : α → α → Bool) (l : List α) : List α :=
  List.insertionSort (fun a b => le a b = true) l

/-- Three-way comparison of natural numbers, as Rust derives it for
integer-valued fields. -/
def natCmp (a b : Nat) : Ordering :=
  if a < b then .lt else if b < a then .gt else .eq

/-- Lexicographic comparison of lists, as Rust derives `Ord` for sequences
(`Vec`, `str` bytes, `PathBuf` components). -/
def lexCmp {α : Type} (cmp : α → α → Ordering) : List α → List α → Ordering
  | [], [] => .eq
  | [], _ :: _ => .lt
  | _ :: _, [] => .gt
  | a :: as, b :: bs => (cmp a b).then (lexCmp cmp as bs)

/-- Character comparison: Rust `char` orders by scalar value. -/
def charCmp (a b : Char) : Ordering := natCmp a.toNat b.toNat

/-- String comparison: Rust `String` orders its bytes lexicographically;
UTF-8 byte order agrees with code-point order, so comparing the character
lists is faithful. -/
def strCmp (a b : String) : Ordering := lexCmp charCmp a.data b.data

/-! ## Vault paths -/

/-- A vault-relative path, as its (non-empty, in practice) list of
components; `VaultPath` wraps a normalized `PathBuf`. -/
abbrev VPath := List String

/-- `PathBuf`'s derived `Ord`: component-wise lexicographic. -/
def pathCmp (a b : VPath) : Ordering := lexCmp strCmp a b

/-- The boolean `≤` used when sorting `Vec<VaultPath>`. -/
def pathLe (a b : VPath) : Bool := cmpLe pathCmp a b

/-- `VaultPath::as_str_lossy().len()`: the UTF-8 byte length of the
`/`-joined path string. -/
def pathStrLen (p : VPath) : Nat :=
  (p.map String.utf8ByteSize).sum + (p.length - 1)

/-- `Path::parent`, with `None` collapsed to the empty path, as
`pick_prefer_source` does with `unwrap_or(Path::new(""))`. -/
def parentDir (p : VPath) : VPath := p.dropLast

/-! ## Sorting and dedup (`Vec::sort` / `Vec::dedup`) -/

/-- The inner state of `Vec::dedup`: drop elements equal to the element most
recently kept. -/
def dedupLoop {α : Type} [DecidableEq α] (prev : α) : List α → List α
  | [] => []
  | b :: t => if b = prev then dedupLoop prev t else b :: dedupLoop b t

/-- `Vec::dedup`: remove **consecutive** duplicates. -/
def rustDedup {α : Type} [DecidableEq α] : List α → List α
  | [] => []
  | a :: rest => a :: dedupLoop a rest

/-- `candidates.sort(); candidates.dedup();` as it opens every `pick`
function in `src/link_resolve.rs`. -/
def sortDedup (l : List VPath) : List VPath := rustDedup (sortBy pathLe l)

/-! ## Link resolution tie-breaking (`src/link_resolve.rs` 195-263) -/

/-- `ResolveResult` from `src/link_resolve.rs`. -/
inductive ResolveResult where
  | Resolved (path : VPath)
  | Ambiguous (candidates : List VPath)
  | Missing
deriving DecidableEq, Repr

/-- `pick`: sort + dedup, then `Missing` / `Resolved` / `Ambiguous` by
count. -/
def pick (candidates : List VPath) : ResolveResult :=
  match sortDedup candidates with
  | [] => .Missing
  | [p] => .Resolved p
  | cs => .Ambiguous cs

/-- The shortest-selection loop of `pick_shortest_or_ambiguous`
(`best_len` / `best` accumulation). -/
def bestLoop : Option Nat → List VPath → List VPath → List VPath
  | _, best, [] => best
  | none, _, c :: rest => bestLoop (some (pathStrLen c)) [c] rest
  | some bl, best, c :: rest =>
    if pathStrLen c < bl then bestLoop (some (pathStrLen c)) [c] rest
    else if pathStrLen c = bl then bestLoop (some bl) (best ++ [c]) rest
    else bestLoop (some bl) best rest

/-- `pick_shortest_or_ambiguous` from `src/link_resolve.rs`. -/
def pick_shortest_or_ambiguous (candidates : List VPath) : ResolveResult :=
  match sortDedup candidates with
  | [] => .Missing
  | [p] => .Resolved p
  | cs =>
    match bestLoop none [] cs with
    | [u] => .Resolved u
    | best => .Ambiguous best

/-- `pick_prefer_source` from `src/link_resolve.rs`: sort + dedup; with two
or more candidates, restrict to those in the source's directory when any
exist, then take the shortest. -/
def pick_prefer_source (candidates : List VPath) (source : VPath) :
    ResolveResult :=
  let cs := sortDedup candidates
  if cs.length ≤ 1 then pick cs
  else
    let sameDir := cs.filter (fun c => decide (parentDir c = parentDir source))
    if ¬ sameDir.isEmpty then pick_shortest_or_ambiguous sameDir
    else pick_shortest_or_ambiguous cs

/-- The minimum path-string length of a non-empty candidate list, as the
loop computes it. -/
def minStrLen : List VPath → Nat
  | [] => 0
  | c :: t => (t.map pathStrLen).foldr min (pathStrLen c)

/-- The equally-shortest candidates of a pool, as the spec phrases it. -/
def shortestOf (pool : List VPath) : List VPath :=
  pool.filter (fun c => decide (∀ d ∈ pool, pathStrLen c ≤ pathStrLen d))

/-- The pool the spec's tie-breaking works on: the sorted deduplicated
candidates, restricted to the source's directory when that restriction is
non-empty. -/
def tieBreakPool (candidates : List VPath) (source : VPath) : List VPath :=
  let cs := sortDedup candidates
  let sameDir := cs.filter (fun c => decide (parentDir c = parentDir source))
  if sameDir.isEmpty then cs else sameDir

/-! ## Query sorting (`src/query.rs` 350-399) -/

/-- Three-way comparison of integers (Rust `i64::cmp`). -/
def intCmp (a b : Int) : Ordering :=
  if a < b then .lt else if b < a then .gt else .eq

/-- `FieldValue` from `src/fields.rs`.  The `f64` payload is modelled as
`Int`: the sorting claims are insensitive to the numeric embedding, which
feeds only the `×1e6`-and-truncate scaling in `sort_value_for_field`. -/
inductive FieldValue where
  | Null
  | Bool (b : Bool)
  | Number (n : Int)
  | String (s : String)
  | List (items : List FieldValue)
  | Object (fields : List (String × FieldValue))

/-- `FieldMap` (`BTreeMap<String, FieldValue>`), extensionally. -/
def FieldMap := String → Option FieldValue

/-- `SortValue` from `src/query.rs`; the derived `Ord` places every
`Number` before every `String`. -/
inductive SortValue where
  | Number (n : Int)
  | String (s : String)
deriving DecidableEq, Repr

/-- Derived `Ord::cmp` for `SortValue`. -/
def svCmp : SortValue → SortValue → Ordering
  | .Number a, .Number b => intCmp a b
  | .Number _, .String _ => .lt
  | .String _, .Number _ => .gt
  | .String a, .String b => strCmp a b

/-- `(n * 1_000_000.0) as i64` on the modelled integer payload. -/
def scaleNumber (n : Int) : Int := n * 1000000

/-- `sort_value_for_field` from `src/query.rs`: map a field value to its
sort key; lists contribute their first applicable element. -/
def sort_value_for_field (fields : FieldMap) (key : String) :
    Option SortValue :=
  match fields key with
  | some (.Number n) => some (.Number (scaleNumber n))
  | some (.String s) => some (.String s)
  | some (.Bool b) => some (.Number (if b then 1 else 0))
  | some (.List items) =>
    items.findSome? fun it =>
      match it with
      | .Number n => some (SortValue.Number (scaleNumber n))
      | .String s => some (SortValue.String s)
      | .Bool b => some (SortValue.Number (if b then 1 else 0))
      | _ => none
  | _ => none

/-- `SortDir` from `src/query.rs`. -/
inductive SortDir where
  | Asc
  | Desc
deriving DecidableEq, Repr

/-- The sort key `ak`/`bk` computed inside `sort_candidates`:
`index.note(p).and_then(|n| sort_value_for_field(&n.fields, key))`.  The
note lookup is modelled by its `fields` map. -/
def sortValueOf (notes : VPath → Option FieldMap) (key : String) (p : VPath) :
    Option SortValue :=
  (notes p).bind fun f => sort_value_for_field f key

/-- The direction-dependent `SortValue` comparison inside
`sort_candidates`: `ak.cmp(&bk)` for `Asc`, `bk.cmp(&ak)` for `Desc`. -/
def dirSvCmp (dir : SortDir) (x y : SortValue) : Ordering :=
  match dir with
  | .Asc => svCmp x y
  | .Desc => svCmp y x

/-- The comparator closure inside `sort_candidates` for `SortKey::Field`:
missing values sort last regardless of direction; equal keys tie-break by
path ascending.  (The direction choice is hoisted out of the `then_with`.) -/
def fieldSortCmp (notes : VPath → Option FieldMap) (key : String)
    (dir : SortDir) (a b : VPath) : Ordering :=
  match sortValueOf notes key a, sortValueOf notes key b with
  | none, none => pathCmp a b
  | none, some _ => .gt
  | some _, none => .lt
  | some x, some y => (dirSvCmp dir x y).then (pathCmp a b)

/-- `SortKey` from `src/query.rs` (named `SortKeyM` because `Sort` collides
with a Lean keyword). -/
inductive SortKeyM where
  | Path
  | Field (key : String)

/-- `sort_candidates` from `src/query.rs`. -/
def sort_candidates (notes : VPath → Option FieldMap) (skey : SortKeyM)
    (dir : SortDir) (paths : List VPath) : List VPath :=
  match skey with
  | .Path =>
    match dir with
    | .Asc => sortBy pathLe paths
    | .Desc => sortBy (fun a b => pathCmp b a != Ordering.gt) paths
  | .Field key =>
    sortBy (fun a b => fieldSortCmp notes key dir a b != Ordering.gt) paths

/-! ## The in-memory index (`src/index.rs`) -/

/-- `FileKind` from `src/index.rs`. -/
inductive FileKind where
  | Markdown
  | Canvas
  | Attachment
  | Other
deriving DecidableEq, Repr

/-- `LinkTarget` from `src/links.rs`. -/
inductive LinkTarget where
  | Internal (reference : String)
  | ExternalUrl (url : String)
  | ObsidianUri (raw : String)
deriving DecidableEq, Repr

/-- The note-level data `upsert_path` stores (`NoteMeta`), restricted to
the fields the claims quantify over; `BTreeSet`s become `Finset`s. -/
structure NoteMetaM where
  title : String
  aliases : Finset String
  tags : Finset String
  links : Finset LinkTarget
deriving DecidableEq

/-- `FileMeta` (schema violations are outside the claims' scope; `mtime`
is an abstract instant). -/
structure FileMetaM where
  kind : FileKind
  mtime : Nat
  size : Nat
deriving DecidableEq

/-- A disk entry as `std::fs::metadata` + `read_to_string` observe it. -/
inductive FsEntry where
  | missing
  | dir
  | file (mtime : Nat) (size : Nat) (content : String)
deriving DecidableEq

/-- The filesystem at one instant, by vault-relative path. -/
def Fs := VPath → FsEntry

/-- The vault as `upsert_path` consults it: the `is_indexable_rel` policy
and the configured extension sets. -/
structure VaultM where
  indexable : VPath → Bool
  noteExts : List String
  attachExts : List String

/-- What `parse_markdown_note` (plus frontmatter field/alias extraction)
contributes to the index.  The claims in this section hold for every parse
function, so the parser is a parameter of the model. -/
structure ParsedLite where
  title : String
  aliases : Finset String
  tags : Finset String
  links : Finset LinkTarget

/-- Split a file name at its last `'.'` (`Path::extension` helper). -/
def lastDotSplit : List Char → Option (List Char × List Char)
  | [] => none
  | c :: rest =>
    match lastDotSplit rest with
    | some (p, r) => some (c :: p, r)
    | none => if c = '.' then some ([], rest) else none

/-- `Path::extension().unwrap_or("")`: the part of the file name after its
last `'.'`, except that a leading dot does not start an extension. -/
def extOf (name : String) : String :=
  match lastDotSplit name.data with
  | none => ""
  | some (pre, rest) => if pre.isEmpty then "" else String.mk rest

/-- ASCII lowercasing of one character (the model of `to_lowercase` on
extension strings). -/
def charLower (c : Char) : Char :=
  if 'A' ≤ c ∧ c ≤ 'Z' then Char.ofNat (c.toNat + 32) else c

/-- ASCII lowercasing of a string. -/
def strLower (s : String) : String := String.mk (s.data.map charLower)

/-- `file_kind_from_path` from `src/index.rs`: classify by lowercased
extension against the configured note/attachment extension lists. -/
def file_kind_from_path (V : VaultM) (p : VPath) : FileKind :=
  let ext := strLower (extOf (p.getLast?.getD ""))
  if V.noteExts.any (fun e => strLower e == ext) then
    match ext with
    | "md" => FileKind.Markdown
    | "canvas" => FileKind.Canvas
    | _ => FileKind.Other
  else if V.attachExts.any (fun e => strLower e == ext) then FileKind.Attachment
  else FileKind.Other

/-- `VaultIndex`'s maps (`src/index.rs` 89-99), extensionally; an absent
`HashMap` entry is `none`. -/
structure IndexState where
  files : VPath → Option FileMetaM
  notes : VPath → Option NoteMetaM
  file_tags : VPath → Option (Finset String)
  file_links : VPath → Option (Finset LinkTarget)
  tags : String → Option (Finset VPath)

/-- `VaultIndex::default()`. -/
def emptyIndex : IndexState :=
  ⟨fun _ => none, fun _ => none, fun _ => none, fun _ => none, fun _ => none⟩

/-- `IndexDelta` from `src/index.rs`. -/
structure IndexDelta where
  added_tags : Finset String
  removed_tags : Finset String
  added_links : Finset LinkTarget
  removed_links : Finset LinkTarget
deriving DecidableEq

/-- `IndexDelta::default()`. -/
def emptyDelta : IndexDelta := ⟨∅, ∅, ∅, ∅⟩

/-- Point update of an extensional map (`HashMap::insert` / `remove`). -/
def upd {β : Type} (m : VPath → Option β) (p : VPath) (v : Option β) :
    VPath → Option β :=
  fun q => if q = p then v else m q

/-- `VaultIndex::reconcile_tag_index`: set-difference old and new tag sets,
insert the path under added tags, remove it under removed tags, and delete
tag entries whose path set becomes empty. -/
def reconcile_tag_index (S : IndexState) (p : VPath)
    (old : Option (Finset String)) (new : Finset String) :
    IndexState × IndexDelta :=
  let old' := old.getD ∅
  let added := new \ old'
  let removed := old' \ new
  let tagsNew : String → Option (Finset VPath) := fun t =>
    if t ∈ added then some ((S.tags t).getD ∅ ∪ {p})
    else if t ∈ removed then
      match S.tags t with
      | some s => if s.erase p = ∅ then none else some (s.erase p)
      | none => none
    else S.tags t
  ({ S with tags := tagsNew },
   { added_tags := added, removed_tags := removed,
     added_links := ∅, removed_links := ∅ })

/-- `VaultIndex::reconcile_link_index`: pure delta computation on the link
sets (the link reverse index is only the per-file map, already updated). -/
def reconcile_link_index (delta : IndexDelta)
    (old : Option (Finset LinkTarget)) (new : Finset LinkTarget) : IndexDelta :=
  let old' := old.getD ∅
  { delta with added_links := new \ old', removed_links := old' \ new }

/-- `VaultIndex::remove_path`: drop all per-file entries and the path's
memberships in the reverse tag index, deleting entries that become empty;
the delta lists all prior tags and links as removed. -/
def remove_path (S : IndexState) (p : VPath) : IndexState × IndexDelta :=
  let old_tags := (S.file_tags p).getD ∅
  let old_links := (S.file_links p).getD ∅
  let tagsNew : String → Option (Finset VPath) := fun t =>
    if t ∈ old_tags then
      match S.tags t with
      | some s => if s.erase p = ∅ then none else some (s.erase p)
      | none => none
    else S.tags t
  ({ files := upd S.files p none,
     notes := upd S.notes p none,
     file_tags := upd S.file_tags p none,
     file_links := upd S.file_links p none,
     tags := tagsNew },
   { added_tags := ∅, removed_tags := old_tags,
     added_links := ∅, removed_links := old_links })

/-- The `(new_tags, new_links, note_meta)` triple `upsert_path` computes by
matching on the file kind.  (In the source the parse happens only in the
note branches; with a pure parse parameter the eager call is equivalent.) -/
def noteDataOf (kind : FileKind) (pr : ParsedLite) :
    Finset String × Finset LinkTarget × Option NoteMetaM :=
  match kind with
  | .Markdown | .Canvas =>
    (pr.tags, pr.links, some ⟨pr.title, pr.aliases, pr.tags, pr.links⟩)
  | _ => (∅, ∅, none)

/-- The body of `upsert_path` once the stat succeeded on a regular file:
store `FileMeta`, swap in the new per-file tag/link sets (remembering the
old ones), store or clear the `NoteMeta`, then reconcile both reverse
indexes. -/
def upsert_file (V : VaultM) (parse : String → ParsedLite) (S : IndexState)
    (p : VPath) (mtime size : Nat) (content : String) :
    IndexState × IndexDelta :=
  let kind := file_kind_from_path V p
  let nd := noteDataOf kind (parse content)
  let old_tags := S.file_tags p
  let old_links := S.file_links p
  let S1 : IndexState :=
    { files := upd S.files p (some ⟨kind, mtime, size⟩),
      notes := upd S.notes p nd.2.2,
      file_tags := upd S.file_tags p (some nd.1),
      file_links := upd S.file_links p (some nd.2.1),
      tags := S.tags }
  let rec1 := reconcile_tag_index S1 p old_tags nd.1
  (rec1.1, reconcile_link_index rec1.2 old_links nd.2.1)

/-- `VaultIndex::upsert_path` (`src/index.rs` 160-271): no-op for
non-indexable paths and directories, an **I/O error** (`NotFound`) for a
missing file, and the full store-and-reconcile otherwise. -/
def upsert_path (V : VaultM) (parse : String → ParsedLite) (fs : Fs)
    (S : IndexState) (p : VPath) : IndexState × Except Unit IndexDelta :=
  if ¬ V.indexable p then (S, .ok emptyDelta)
  else
    match fs p with
    | .missing => (S, .error ())
    | .dir => (S, .ok emptyDelta)
    | .file mtime size content =>
      ((upsert_file V parse S p mtime size content).1,
        .ok (upsert_file V parse S p mtime size content).2)

/-- An index mutation: each upsert carries the filesystem as seen at that
moment. -/
inductive IndexOp where
  | upsert (fs : Fs) (p : VPath)
  | remove (p : VPath)

/-- Apply one operation (errors leave the state unchanged, as `?` does in
the source). -/
def applyOp (V : VaultM) (parse : String → ParsedLite) (S : IndexState) :
    IndexOp → IndexState
  | .upsert fs p => (upsert_path V parse fs S p).1
  | .remove p => (remove_path S p).1

/-- Run a sequence of operations from the empty index. -/
def runOps (V : VaultM) (parse : String → ParsedLite)
    (ops : List IndexOp) : IndexState :=
  ops.foldl (applyOp V parse) emptyIndex

/-- The inductive invariant tying the reverse tag index, the per-file tag
sets and the stored notes together; no stored tag entry is empty. -/
def IndexWF (S : IndexState) : Prop :=
  (∀ p, (S.file_tags p).getD ∅ =
    (match S.notes p with
     | some n => n.tags
     | none => ∅)) ∧
  (∀ t p, p ∈ (S.tags t).getD ∅ ↔ t ∈ (S.file_tags p).getD ∅) ∧
  (∀ t s, S.tags t = some s → s ≠ ∅)

/-- A path about which the index knows nothing: no file, note, per-file
sets, and no membership in any reverse tag entry (with no empty entries
stored, as the index maintains). -/
def FreshPath (S : IndexState) (p : VPath) : Prop :=
  S.files p = none ∧ S.notes p = none ∧ S.file_tags p = none ∧
  S.file_links p = none ∧ ∀ t s, S.tags t = some s → p ∉ s ∧ s ≠ ∅

/-- Index state equality that ignores the `files` map (the "file metadata"
of the claim). -/
def eqUpToFileMeta (S S' : IndexState) : Prop :=
  S.notes = S'.notes ∧ S.file_tags = S'.file_tags ∧
  S.file_links = S'.file_links ∧ S.tags = S'.tags

/-- Concrete instances for the witnesses and the C9 counterexample. -/
def vaultC : VaultM := ⟨fun _ => true, ["md", "canvas"], []⟩

/-- A parse function producing one tag `t` for any content. -/
def parseC : String → ParsedLite := fun _ => ⟨"T", ∅, {"t"}, ∅⟩

/-- A filesystem holding exactly one file `a.md`. -/
def fsC : Fs := fun q => if q = ["a.md"] then .file 0 0 "x" else .missing

/-- The index state after indexing `a.md` once: the pre-state of the C9
counterexample.  It stores a note with tag `t` at `a.md`. -/
def stateC : IndexState := (upsert_path vaultC parseC fsC emptyIndex ["a.md"]).1

/-- The watcher events `apply_events` emits for one op (`src/service.rs`):
`Indexed`/`Removed`/`Error` with their payloads (causes omitted — they are
opaque labels). -/
inductive VaultEventM where
  | indexed (path : VPath) (delta : IndexDelta)
  | removed (path : VPath) (delta : IndexDelta)
  | errorEvent (path : Option VPath)
deriving DecidableEq

/-- The `Op::Upsert` arm of `apply_events`: stat the path; a directory is
skipped silently, a missing file is demoted to `remove_path` with a
`Removed` event, otherwise `upsert_path` runs (its own not-found error —
the only error in the model — again demoted to a remove). -/
def applyUpsertOp (V : VaultM) (parse : String → ParsedLite) (fs : Fs)
    (S : IndexState) (p : VPath) : IndexState × Option VaultEventM :=
  match fs p with
  | .dir => (S, none)
  | .missing =>
    ((remove_path S p).1, some (.removed p (remove_path S p).2))
  | .file _ _ _ =>
    match hu : upsert_path V parse fs S p with
    | (S', .ok delta) => (S', some (.indexed p delta))
    | (S', .error _) =>
      ((remove_path S' p).1, some (.removed p (remove_path S' p).2))

/-- A filesystem on which every path is missing. -/
def fsMissing : Fs := fun _ => .missing

/-- `Link` (`src/links.rs`), restricted to the fields the graph claims
inspect: the target, the location used for ordering, and the raw text as
an opaque payload. -/
structure Link where
  target : LinkTarget
  location : Nat × Nat
  raw : String
deriving DecidableEq

/-- `Backlink` (`src/links.rs`). -/
structure Backlink where
  source : VPath
  link : Link
deriving DecidableEq

/-- `ResolvedInternalLink` (`src/graph.rs`). -/
structure ResolvedInternalLink where
  source : VPath
  link : Link
  resolution : ResolveResult
deriving DecidableEq

/-- `GraphIndex` with its `BacklinksIndex` flattened in: the `inbound` map
(extensionally, absent key = `[]`), the two counters, and the issue list. -/
structure GraphIndex where
  unresolved : Nat
  ambiguous : Nat
  inbound : VPath → List Backlink
  issues : List ResolvedInternalLink

def emptyGraph : GraphIndex := ⟨0, 0, fun _ => [], []⟩

/-- `matches!(l.target, LinkTarget::Internal { .. })`. -/
def isInternal : LinkTarget → Bool
  | .Internal _ => true
  | _ => false

/-- Association-list lookup standing for `notes.get(source)`. -/
def lookupNote : List (VPath × List Link) → VPath → Option (List Link)
  | [], _ => none
  | (q, ls) :: rest, p => if q = p then some ls else lookupNote rest p

/-- The body shared by `resolved_outgoing_internal_links` and the graph
pass: internal link occurrences of one note, each with its resolution. -/
def outgoingOf (resolve : LinkTarget → VPath → ResolveResult)
    (source : VPath) (ls : List Link) : List ResolvedInternalLink :=
  (ls.filter (fun l => isInternal l.target)).map
    (fun l => ⟨source, l, resolve l.target source⟩)

/-- `VaultIndex::resolved_outgoing_internal_links` (`src/index.rs`
552-569), with the resolver abstracted as a function parameter. -/
def resolved_outgoing_internal_links (notes : List (VPath × List Link))
    (resolve : LinkTarget → VPath → ResolveResult) (source : VPath) :
    List ResolvedInternalLink :=
  match lookupNote notes source with
  | none => []
  | some links => outgoingOf resolve source links

/-- One iteration of the inner loop of `build_graph`: skip non-internal
targets, then push a backlink or an issue according to the resolution. -/
def classifyLink (resolve : LinkTarget → VPath → ResolveResult)
    (source : VPath) (G : GraphIndex) (l : Link) : GraphIndex :=
  if isInternal l.target then
    match resolve l.target source with
    | .Resolved target =>
      { G with inbound := fun q =>
          if q = target then G.inbound target ++ [⟨source, l⟩]
          else G.inbound q }
    | .Missing =>
      { G with unresolved := G.unresolved + 1,
               issues := G.issues ++ [⟨source, l, .Missing⟩] }
    | .Ambiguous cs =>
      { G with ambiguous := G.ambiguous + 1,
               issues := G.issues ++ [⟨source, l, .Ambiguous cs⟩] }
  else G

def linksLoop (resolve : LinkTarget → VPath → ResolveResult)
    (source : VPath) : GraphIndex → List Link → GraphIndex
  | G, [] => G
  | G, l :: ls => linksLoop resolve source (classifyLink resolve source G l) ls

def notesLoop (resolve : LinkTarget → VPath → ResolveResult) :
    GraphIndex → List (VPath × List Link) → GraphIndex
  | G, [] => G
  | G, e :: rest => notesLoop resolve (linksLoop resolve e.1 G e.2) rest

/-- `(line, col)` ordering of link locations. -/
def locCmp (a b : Nat × Nat) : Ordering :=
  (natCmp a.1 b.1).then (natCmp a.2 b.2)

def backlinkLe (a b : Backlink) : Bool :=
  ((pathCmp a.source b.source).then
    (locCmp a.link.location b.link.location)) != Ordering.gt

def issueLe (a b : ResolvedInternalLink) : Bool :=
  ((pathCmp a.source b.source).then
    (locCmp a.link.location b.link.location)) != Ordering.gt

/-- `build_graph` (`src/graph.rs` 34-88): classify every internal link
occurrence of every note, then sort each inbound bucket and the issue list
by `(source, location)`. -/
def build_graph (notes : List (VPath × List Link))
    (resolve : LinkTarget → VPath → ResolveResult) : GraphIndex :=
  let G := notesLoop resolve emptyGraph notes
  { G with inbound := fun t => sortBy backlinkLe (G.inbound t),
           issues := sortBy issueLe G.issues }

/-- `true` on the resolutions the graph records as issues. -/
def nonResolvedB : ResolveResult → Bool
  | .Resolved _ => false
  | _ => true

/-- The backlink (if any) a classified link contributes to target `t`. -/
def inboundOf (t : VPath) (i : ResolvedInternalLink) : Option Backlink :=
  match i.resolution with
  | .Resolved q => if q = t then some ⟨i.source, i.link⟩ else none
  | _ => none

/-- One internal link for the C4 witness. -/
def linkW : Link := ⟨.Internal "b", (1, 0), "b"⟩

/-- Two notes: `a.md` links internally, `b.md` has no links. -/
def notesW : List (VPath × List Link) := [(["a.md"], [linkW]), (["b.md"], [])]

/-- A resolver sending every internal reference to `b.md`. -/
def resolveW : LinkTarget → VPath → ResolveResult :=
  fun _ _ => .Resolved ["b.md"]

/-- `str::trim`: whitespace stripped from both ends. -/
def rustTrim (l : List Char) : List Char :=
  ((trimStart ((trimStart l).reverse)).reverse)

/-- Split a character list at newlines (every piece kept, including a
trailing empty one). -/
def splitOnNl : List Char → List (List Char)
  | [] => [[]]
  | c :: rest =>
    match splitOnNl rest with
    | [] => [[c]]
    | h :: t => if c = '\n' then [] :: h :: t else (c :: h) :: t

/-- Strip one trailing `'\r'` (as `str::lines` does per line). -/
def stripCr (l : List Char) : List Char :=
  if l.getLast? = some '\r' then l.dropLast else l

/-- `str::lines`: split on `'\n'`, drop a final empty piece, strip a
trailing `'\r'` from each line. -/
def rustLines (s : String) : List (List Char) :=
  if s.data = [] then []
  else
    let parts := splitOnNl s.data
    (if parts.getLast? = some [] then parts.dropLast else parts).map stripCr

/-- `SearchHit` of `search_filenames_fuzzy`: path and score. -/
def hitLe (a b : VPath × Nat) : Bool :=
  ((natCmp b.2 a.2).then (pathCmp a.1 b.1)) != Ordering.gt

/-- `VaultIndex::search_filenames_fuzzy` (`src/index.rs` 572-596).  The
nucleo pattern built from the trimmed query is abstracted as a scoring
function on the lossy path string; the index is only read, never
modified. -/
def search_filenames_fuzzy (files : List (VPath × FileMetaM))
    (score : String → Option Nat) (pathStr : VPath → String)
    (query : String) (limit : Nat) : List (VPath × Nat) :=
  if rustTrim query.data = [] ∨ limit = 0 then []
  else
    let hits := files.filterMap (fun e =>
      match score (pathStr e.1) with
      | some sc => some (e.1, sc)
      | none => none)
    (sortBy hitLe hits).take limit

/-- `ContentSearchHit` (`src/index.rs`). -/
structure ContentSearchHit where
  path : VPath
  score : Nat
  line : Nat
  line_text : String
deriving DecidableEq

/-- The best-scoring non-empty line of a note: fold over the lines with
the running best `(score, line_no, text)`, replacing only on a strictly
greater score. -/
def bestLineLoop (score : List Char → Option Nat) :
    Option (Nat × Nat × List Char) → Nat → List (List Char) →
      Option (Nat × Nat × List Char)
  | best, _, [] => best
  | best, ix, line :: rest =>
    if rustTrim line = [] then bestLineLoop score best (ix + 1) rest
    else
      match score (rustTrim line) with
      | none => bestLineLoop score best (ix + 1) rest
      | some sc =>
        match best with
        | none => bestLineLoop score (some (sc, ix + 1, line)) (ix + 1) rest
        | some (b, l0, t0) =>
          if b < sc then bestLineLoop score (some (sc, ix + 1, line)) (ix + 1) rest
          else bestLineLoop score (some (b, l0, t0)) (ix + 1) rest

/-- The file loop of `search_content_fuzzy`: skip non-note kinds, read
each note from the filesystem (a failed read aborts with an error), keep
the best-scoring line per note. -/
def contentLoop (fs : Fs) (score : List Char → Option Nat) :
    List (VPath × FileMetaM) → Except Unit (List ContentSearchHit)
  | [] => .ok []
  | (p, fm) :: rest =>
    if fm.kind = FileKind.Markdown ∨ fm.kind = FileKind.Canvas then
      match fs p with
      | .file _ _ c =>
        match contentLoop fs score rest with
        | .error e => .error e
        | .ok hs =>
          match bestLineLoop score none 0 (rustLines c) with
          | none => .ok hs
          | some (sc, ln, txt) => .ok (⟨p, sc, ln, String.mk txt⟩ :: hs)
      | _ => .error ()
    else contentLoop fs score rest

def contentHitLe (a b : ContentSearchHit) : Bool :=
  (((natCmp b.score a.score).then (pathCmp a.path b.path)).then
    (natCmp a.line b.line)) != Ordering.gt

/-- `VaultIndex::search_content_fuzzy` (`src/index.rs` 602-662). -/
def search_content_fuzzy (files : List (VPath × FileMetaM)) (fs : Fs)
    (score : List Char → Option Nat) (query : String) (limit : Nat) :
    Except Unit (List ContentSearchHit) :=
  if rustTrim query.data = [] ∨ limit = 0 then .ok []
  else
    match contentLoop fs score files with
    | .error e => .error e
    | .ok hits => .ok ((sortBy contentHitLe hits).take limit)

/-! ## Theorems -/

theorem stripUnorderedMarker_eq_some {s r : List Char} :
    stripUnorderedMarker s = some r ↔
      s = '-' :: ' ' :: r ∨ s = '*' :: ' ' :: r ∨ s = '+' :: ' ' :: r := by
  unfold stripUnorderedMarker
  split <;> simp_all

theorem takeWhile_append_of_neg {α : Type} {p : α → Bool} {l₁ l₂ : List α}
    (h₁ : ∀ a ∈ l₁, p a) (b : α) (hb : p b = false) :
    (l₁ ++ b :: l₂).takeWhile p = l₁ ∧ (l₁ ++ b :: l₂).dropWhile p = b :: l₂ := by
  induction l₁ with
  | nil => simp [List.takeWhile, List.dropWhile, hb]
  | cons a t ih =>
    have ha : p a := h₁ a (by simp)
    have := ih (fun x hx => h₁ x (by simp [hx]))
    simp [List.takeWhile, List.dropWhile, ha, this.1, this.2]

theorem stripOrderedMarker_eq_some {s r : List Char} :
    stripOrderedMarker s = some r ↔
      ∃ ds p, s = ds ++ p :: ' ' :: r ∧ ds ≠ [] ∧ (∀ c ∈ ds, c.isDigit) ∧
        (p = '.' ∨ p = ')') := by
  constructor
  · intro h
    unfold stripOrderedMarker at h
    split at h
    · exact absurd h (by simp)
    · rename_i hne
      split at h
      · rename_i p r0 heq
        split at h
        · rename_i hp
          simp only [Option.some.injEq] at h
          subst h
          refine ⟨s.takeWhile (·.isDigit), p, ?_, by simpa [List.isEmpty_iff] using hne,
            fun c hc => List.mem_takeWhile_imp hc, hp⟩
          calc s = s.takeWhile (·.isDigit) ++ s.dropWhile (·.isDigit) := by
                rw [List.takeWhile_append_dropWhile]
            _ = s.takeWhile (·.isDigit) ++ p :: ' ' :: r0 := by rw [heq]
        · exact absurd h (by simp)
      · exact absurd h (by simp)
  · rintro ⟨ds, p, rfl, hds, hdig, hp⟩
    have hpd : (·.isDigit : Char → Bool) p = false := by
      rcases hp with rfl | rfl <;> decide
    obtain ⟨htake, hdrop⟩ :=
      @takeWhile_append_of_neg Char (·.isDigit) ds (' ' :: r) hdig p hpd
    unfold stripOrderedMarker
    rw [htake, hdrop]
    simp [List.isEmpty_iff, hds, hp]

theorem markerStripped_eq_some {s r : List Char} :
    markerStripped s = some r ↔ ∃ pre, s = pre ++ r ∧ IsTaskMarker pre := by
  constructor
  · intro h
    unfold markerStripped at h
    rcases hu : stripUnorderedMarker s with _ | r'
    · rw [hu] at h
      obtain ⟨ds, p, rfl, hds, hdig, hp⟩ := stripOrderedMarker_eq_some.mp h
      exact ⟨ds ++ [p, ' '], by simp,
        Or.inr (Or.inr (Or.inr ⟨ds, p, rfl, hds, hdig, hp⟩))⟩
    · rw [hu] at h
      simp only [Option.some.injEq] at h
      subst h
      rcases stripUnorderedMarker_eq_some.mp hu with rfl | rfl | rfl
      · exact ⟨['-', ' '], rfl, Or.inl rfl⟩
      · exact ⟨['*', ' '], rfl, Or.inr (Or.inl rfl)⟩
      · exact ⟨['+', ' '], rfl, Or.inr (Or.inr (Or.inl rfl))⟩
  · rintro ⟨pre, rfl, hpre | hpre | hpre | ⟨ds, p, rfl, hds, hdig, hp⟩⟩
    · subst hpre; rfl
    · subst hpre; rfl
    · subst hpre; rfl
    · obtain ⟨d, ds', rfl⟩ : ∃ d ds', ds = d :: ds' := by
        cases ds with
        | nil => exact absurd rfl hds
        | cons d ds' => exact ⟨d, ds', rfl⟩
      have hd : d.isDigit := hdig d (by simp)
      have hne : d ≠ '-' ∧ d ≠ '*' ∧ d ≠ '+' := by
        refine ⟨?_, ?_, ?_⟩ <;> rintro rfl <;> simp [Char.isDigit] at hd
      have hu : stripUnorderedMarker ((d :: ds') ++ [p, ' '] ++ r) = none := by
        unfold stripUnorderedMarker
        split
        · rename_i heq
          have hhd : d = '-' := by simpa using congrArg List.head? heq
          exact absurd hhd hne.1
        · rename_i heq
          have hhd : d = '*' := by simpa using congrArg List.head? heq
          exact absurd hhd hne.2.1
        · rename_i heq
          have hhd : d = '+' := by simpa using congrArg List.head? heq
          exact absurd hhd hne.2.2
        · rfl
      unfold markerStripped
      rw [hu]
      exact stripOrderedMarker_eq_some.mpr ⟨d :: ds', p, by simp, hds, hdig, hp⟩

theorem taskCell_eq_some {cell : List Char} {st : TaskStatus} {txt : List Char} :
    taskCell cell = some (st, txt) ↔
      ∃ mark r, cell = '[' :: mark :: ']' :: r ∧
        taskStatusOfMark mark = some st ∧ txt = trimStart r := by
  unfold taskCell
  split
  · rename_i mark r
    rcases hst : taskStatusOfMark mark with _ | st'
    · constructor
      · intro h
        have h' : (none : Option (TaskStatus × List Char)) = some (st, txt) := h
        exact absurd h' (by simp)
      · rintro ⟨mark', r', heq, hst', htxt'⟩
        simp only [List.cons.injEq] at heq
        obtain ⟨-, rfl, -, -⟩ := heq
        rw [hst] at hst'
        exact absurd hst' (by simp)
    · constructor
      · intro h
        have h' : some (st', trimStart r) = some (st, txt) := h
        simp only [Option.some.injEq, Prod.mk.injEq] at h'
        exact ⟨mark, r, rfl, by rw [hst, h'.1], h'.2.symm⟩
      · rintro ⟨mark', r', heq, hst', htxt'⟩
        simp only [List.cons.injEq] at heq
        obtain ⟨-, rfl, -, rfl⟩ := heq
        rw [hst] at hst'
        simp only [Option.some.injEq] at hst'
        show some (st', trimStart r) = some (st, txt)
        rw [htxt', hst']
  · rename_i hnm
    constructor
    · intro h; exact absurd h (by simp)
    · rintro ⟨mark, r, rfl, -, -⟩
      exact (hnm mark r rfl).elim

/-- **C6 (amended).** A line yields a task iff its left-trimmed form is a
list marker (unordered `- `/`* `/`+ ` or ordered `digits. `/`digits) `)
followed directly by a length-3 `[X]` cell whose mark is one of
`' '`, `x`, `X`, `>`, `-`, `?`; the task's status is the one assigned to the
mark and its text is the remainder after the cell with leading whitespace
trimmed.  (No space is required between the `[X]` cell and the text.) -/
theorem parse_task_line_characterization (line : List Char) (st : TaskStatus)
    (txt : List Char) :
    parse_task_line line = some (st, txt) ↔
      ∃ pre mark rest, trimStart line = pre ++ '[' :: mark :: ']' :: rest ∧
        IsTaskMarker pre ∧ taskStatusOfMark mark = some st ∧
        txt = trimStart rest := by
  constructor
  · intro h
    unfold parse_task_line at h
    split at h
    · exact absurd h (by simp)
    · rename_i cell hm
      obtain ⟨pre, hsplit, hpre⟩ := markerStripped_eq_some.mp hm
      obtain ⟨mark, r, rfl, hst, htxt⟩ := taskCell_eq_some.mp h
      exact ⟨pre, mark, r, hsplit, hpre, hst, htxt⟩
  · rintro ⟨pre, mark, rest, hsplit, hmarker, hst, htxt⟩
    have hm : markerStripped (trimStart line) = some ('[' :: mark :: ']' :: rest) :=
      markerStripped_eq_some.mpr ⟨pre, hsplit, hmarker⟩
    unfold parse_task_line
    rw [hm]
    exact taskCell_eq_some.mpr ⟨mark, rest, rfl, hst, htxt⟩

/-- **C6 counterexample input.** `- [x]done` has no space after the `[x]`
cell (character 5 of the line is `d`), yet the parser yields a `Done` task
with text `done`. -/
theorem parse_task_line_accepts_missing_space :
    parse_task_line ("- [x]done".data) = some (.Done, "done".data) ∧
      "- [x]done".data[5]? ≠ some ' ' := by
  constructor
  · rfl
  · decide

theorem lastCaretSplit_eq_none {l : List Char} :
    lastCaretSplit l = none ↔ '^' ∉ l := by
  induction l with
  | nil => simp [lastCaretSplit]
  | cons c t ih =>
    unfold lastCaretSplit
    rcases h : lastCaretSplit t with _ | ⟨p, r⟩
    · have ht : '^' ∉ t := ih.mp h
      by_cases hc : c = '^'
      · subst hc; simp [ht]
      · simp only [List.mem_cons, if_neg hc]
        constructor
        · intro _ hmem
          rcases hmem with h1 | h2
          · exact hc h1.symm
          · exact ht h2
        · intro _; trivial
    · have ht : '^' ∈ t := by
        by_contra hn
        rw [ih.mpr hn] at h
        exact Option.noConfusion h
      simp [ht]

theorem lastCaretSplit_sound {l pre rest : List Char}
    (h : lastCaretSplit l = some (pre, rest)) :
    l = pre ++ '^' :: rest ∧ '^' ∉ rest := by
  induction l generalizing pre rest with
  | nil => simp [lastCaretSplit] at h
  | cons c t ih =>
    unfold lastCaretSplit at h
    rcases ht : lastCaretSplit t with _ | ⟨p, r⟩
    · rw [ht] at h
      by_cases hc : c = '^'
      · rw [if_pos hc] at h
        simp only [Option.some.injEq, Prod.mk.injEq] at h
        refine ⟨?_, h.2 ▸ lastCaretSplit_eq_none.mp ht⟩
        rw [← h.1, ← h.2, hc]
        rfl
      · rw [if_neg hc] at h
        exact absurd h (by simp)
    · rw [ht] at h
      simp only [Option.some.injEq, Prod.mk.injEq] at h
      obtain ⟨heq, hnr⟩ := ih ht
      refine ⟨?_, h.2 ▸ hnr⟩
      rw [← h.1, ← h.2, heq]
      rfl

theorem lastCaretSplit_complete {pre rest : List Char} (hnr : '^' ∉ rest) :
    lastCaretSplit (pre ++ '^' :: rest) = some (pre, rest) := by
  have h0 : lastCaretSplit rest = none := lastCaretSplit_eq_none.mpr hnr
  induction pre with
  | nil => simp [lastCaretSplit, h0]
  | cons a pt ih => simp [lastCaretSplit, ih]

theorem lastCaretSplit_eq_some {l pre rest : List Char} :
    lastCaretSplit l = some (pre, rest) ↔
      l = pre ++ '^' :: rest ∧ '^' ∉ rest := by
  constructor
  · exact lastCaretSplit_sound
  · rintro ⟨rfl, hnr⟩
    exact lastCaretSplit_complete hnr

/-- **C7 (amended).** Block-id extraction looks only at the **last** `'^'`
of the line: it yields an id exactly when the line splits as
`pre ++ '^' :: rest` with no further `'^'` in `rest`, the character directly
before that `'^'` (when `pre` is non-empty) is whitespace, and the run of
`[A-Za-z0-9_-]` characters at the head of `rest` is non-empty; the id is
that run.  Earlier qualifying `'^'` occurrences are ignored. -/
theorem parse_block_id_characterization (line id : List Char) :
    parse_block_id line = some id ↔
      ∃ pre rest, line = pre ++ '^' :: rest ∧ '^' ∉ rest ∧
        (pre = [] ∨ ∃ c, pre.getLast? = some c ∧ c.isWhitespace) ∧
        id = rest.takeWhile isBlockIdChar ∧ id ≠ [] := by
  have hprev : ∀ pre : List Char, prevBlocksId pre = false ↔
      (pre = [] ∨ ∃ c, pre.getLast? = some c ∧ c.isWhitespace) := by
    intro pre
    unfold prevBlocksId
    rcases hlast : pre.getLast? with _ | prev
    · simp [List.getLast?_eq_none_iff.mp hlast]
    · have : pre ≠ [] := by
        rintro rfl; simp at hlast
      simp [this, hlast]
  have hcell : ∀ pre rest : List Char,
      blockIdAfterCaret pre rest = some id ↔
        ((pre = [] ∨ ∃ c, pre.getLast? = some c ∧ c.isWhitespace) ∧
          id = rest.takeWhile isBlockIdChar ∧ id ≠ []) := by
    intro pre rest
    unfold blockIdAfterCaret
    rcases hre : rest.isEmpty with _ | _
    · rcases hb : prevBlocksId pre with _ | _
      · rcases hid : (rest.takeWhile isBlockIdChar).isEmpty with _ | _
        · simp only [Bool.false_eq_true, if_false]
          constructor
          · intro h
            simp only [Option.some.injEq] at h
            subst h
            exact ⟨(hprev pre).mp hb, rfl, by simpa [List.isEmpty_iff] using hid⟩
          · rintro ⟨-, rfl, -⟩
            rfl
        · simp only [Bool.false_eq_true, if_false, if_pos rfl]
          constructor
          · intro h; exact absurd h (by simp)
          · rintro ⟨-, rfl, hne⟩
            exact absurd (by simpa [List.isEmpty_iff] using hid) hne
      · simp only [Bool.false_eq_true, if_false, if_pos rfl]
        constructor
        · intro h; exact absurd h (by simp)
        · rintro ⟨hor, -, -⟩
          rw [(hprev pre).mpr hor] at hb
          exact absurd hb (by simp)
    · simp only [if_pos rfl]
      constructor
      · intro h; exact absurd h (by simp)
      · rintro ⟨-, rfl, hne⟩
        have hrest : rest = [] := by simpa [List.isEmpty_iff] using hre
        subst hrest
        simp at hne
  constructor
  · intro h
    unfold parse_block_id at h
    split at h
    · exact absurd h (by simp)
    · rename_i pre rest hs
      obtain ⟨heq, hnr⟩ := lastCaretSplit_sound hs
      obtain ⟨hor, hid, hne⟩ := (hcell pre rest).mp h
      exact ⟨pre, rest, heq, hnr, hor, hid, hne⟩
  · rintro ⟨pre, rest, rfl, hnr, hor, hid, hne⟩
    unfold parse_block_id
    rw [lastCaretSplit_complete hnr]
    exact (hcell pre rest).mpr ⟨hor, hid, hne⟩

/-- **C7 counterexample input.** In `"^a b^c"` the `'^'` at start-of-line is
followed by the id character `a` (so the claim demands block id `a`, as the
second conjunct shows for the line `"^a"` alone), but the extractor inspects
only the *last* `'^'`, whose preceding character `b` is not whitespace, and
returns nothing. -/
theorem parse_block_id_ignores_earlier_carets :
    parse_block_id ("^a b^c".data) = none ∧
      parse_block_id ("^a".data) = some ['a'] := by
  constructor <;> rfl

theorem IsLawfulCmp.refl_eq {α : Type} {cmp : α → α → Ordering}
    (h : IsLawfulCmp cmp) (a : α) : cmp a a = .eq := by
  have := h.swap_eq a a
  rcases hc : cmp a a with _ | _ | _ <;> rw [hc] at this <;>
    first | rfl | exact absurd this (by simp [Ordering.swap])

theorem IsLawfulCmp.eq_right {α : Type} {cmp : α → α → Ordering}
    (h : IsLawfulCmp cmp) {a b c : α} (hbc : cmp b c = .eq) :
    cmp a b = cmp a c := by
  calc cmp a b = (cmp b a).swap := by rw [h.swap_eq a b, Ordering.swap_swap]
    _ = (cmp c a).swap := by rw [h.eq_left hbc]
    _ = cmp a c := by rw [h.swap_eq a c, Ordering.swap_swap]

theorem cmpLe_total {α : Type} {cmp : α → α → Ordering} (h : IsLawfulCmp cmp)
    (a b : α) : (cmpLe cmp a b || cmpLe cmp b a) = true := by
  unfold cmpLe
  have hs := h.swap_eq a b
  rcases hc : cmp a b with _ | _ | _ <;> rw [hc] at hs <;>
    simp only [hc, hs, Ordering.swap] <;> decide

theorem cmpLe_trans {α : Type} {cmp : α → α → Ordering} (h : IsLawfulCmp cmp)
    (a b c : α) (hab : cmpLe cmp a b = true) (hbc : cmpLe cmp b c = true) :
    cmpLe cmp a c = true := by
  unfold cmpLe at *
  rcases h1 : cmp a b with _ | _ | _ <;> rw [h1] at hab
  · rcases h2 : cmp b c with _ | _ | _ <;> rw [h2] at hbc
    · rw [h.lt_trans h1 h2]; rfl
    · rw [← h.eq_right h2, h1]; rfl
    · exact absurd hbc (by decide)
  · rw [h.eq_left h1]
    exact hbc
  · exact absurd hab (by decide)

theorem cmpLe_of_not_gt {α : Type} {cmp : α → α → Ordering} {a b : α}
    (h : cmp a b ≠ .gt) : cmpLe cmp a b = true := by
  unfold cmpLe
  rcases hc : cmp a b with _ | _ | _
  · decide
  · decide
  · exact absurd hc h

theorem not_gt_of_cmpLe {α : Type} {cmp : α → α → Ordering} {a b : α}
    (h : cmpLe cmp a b = true) : cmp a b ≠ .gt := by
  intro hgt
  unfold cmpLe at h
  rw [hgt] at h
  exact absurd h (by decide)

theorem sortBy_sorted {α : Type} (le : α → α → Bool)
    (htrans : ∀ a b c, le a b = true → le b c = true → le a c = true)
    (htotal : ∀ a b, (le a b || le b a) = true) (l : List α) :
    List.Pairwise (fun a b => le a b = true) (sortBy le l) := by
  haveI : IsTotal α (fun a b => le a b = true) := ⟨by
    intro a b
    simpa using htotal a b⟩
  haveI : IsTrans α (fun a b => le a b = true) := ⟨fun a b c => htrans a b c⟩
  exact List.sorted_insertionSort _ l

theorem sortBy_perm {α : Type} (le : α → α → Bool) (l : List α) :
    (sortBy le l).Perm l :=
  List.perm_insertionSort _ l

theorem natCmp_eq_lt {a b : Nat} : natCmp a b = .lt ↔ a < b := by
  unfold natCmp
  by_cases h1 : a < b <;> by_cases h2 : b < a <;> simp [h1, h2]

theorem natCmp_eq_eq {a b : Nat} : natCmp a b = .eq ↔ a = b := by
  unfold natCmp
  by_cases h1 : a < b <;> by_cases h2 : b < a <;> simp [h1, h2] <;> omega

theorem natCmp_lawful : IsLawfulCmp natCmp := by
  refine ⟨?_, ?_, ?_⟩
  · intro a b
    unfold natCmp
    by_cases h1 : a < b <;> by_cases h2 : b < a <;>
      simp [h1, h2, Ordering.swap] <;> omega
  · intro a b c h1 h2
    exact natCmp_eq_lt.mpr (Nat.lt_trans (natCmp_eq_lt.mp h1) (natCmp_eq_lt.mp h2))
  · intro a b c h1
    rw [natCmp_eq_eq.mp h1]

theorem Ordering.then_swap (x y : Ordering) :
    (x.then y).swap = x.swap.then y.swap := by
  cases x <;> rfl

theorem Ordering.then_eq_lt {x y : Ordering} :
    x.then y = .lt ↔ x = .lt ∨ (x = .eq ∧ y = .lt) := by
  cases x <;> simp [Ordering.then]

theorem Ordering.then_eq_eq {x y : Ordering} :
    x.then y = .eq ↔ x = .eq ∧ y = .eq := by
  cases x <;> simp [Ordering.then]

theorem lexCmp_lawful {α : Type} {cmp : α → α → Ordering}
    (h : IsLawfulCmp cmp) : IsLawfulCmp (lexCmp cmp) := by
  refine ⟨?_, ?_, ?_⟩
  · intro xs
    induction xs with
    | nil => intro ys; cases ys <;> rfl
    | cons a as ih =>
      intro ys
      cases ys with
      | nil => rfl
      | cons b bs =>
        show (cmp b a).then (lexCmp cmp bs as) = ((cmp a b).then (lexCmp cmp as bs)).swap
        rw [Ordering.then_swap, h.swap_eq a b, ih bs]
  · intro xs
    induction xs with
    | nil =>
      intro ys zs h1 h2
      cases ys with
      | nil => exact h2
      | cons b bs =>
        cases zs with
        | nil => exact absurd h2 (by simp [lexCmp])
        | cons c cs => rfl
    | cons a as ih =>
      intro ys zs h1 h2
      cases ys with
      | nil => exact absurd h1 (by simp [lexCmp])
      | cons b bs =>
        cases zs with
        | nil => exact absurd h2 (by simp [lexCmp])
        | cons c cs =>
          show (cmp a c).then (lexCmp cmp as cs) = .lt
          rcases Ordering.then_eq_lt.mp h1 with hab | ⟨hab, hab2⟩ <;>
            rcases Ordering.then_eq_lt.mp h2 with hbc | ⟨hbc, hbc2⟩
          · rw [Ordering.then_eq_lt]; exact Or.inl (h.lt_trans hab hbc)
          · rw [Ordering.then_eq_lt]; exact Or.inl (by rw [← h.eq_right hbc]; exact hab)
          · rw [Ordering.then_eq_lt]; exact Or.inl (by rw [h.eq_left hab]; exact hbc)
          · rw [Ordering.then_eq_lt]
            refine Or.inr ⟨by rw [h.eq_left hab]; exact hbc, ih hab2 hbc2⟩
  · intro xs
    induction xs with
    | nil =>
      intro ys zs h1
      cases ys with
      | nil => rfl
      | cons b bs => exact absurd h1 (by simp [lexCmp])
    | cons a as ih =>
      intro ys zs h1
      cases ys with
      | nil => exact absurd h1 (by simp [lexCmp])
      | cons b bs =>
        obtain ⟨hab, htail⟩ := Ordering.then_eq_eq.mp h1
        cases zs with
        | nil => rfl
        | cons c cs =>
          show (cmp a c).then (lexCmp cmp as cs) = (cmp b c).then (lexCmp cmp bs cs)
          rw [h.eq_left hab, ih htail]

theorem lexCmp_eq_eq_of {α : Type} {cmp : α → α → Ordering}
    (hinj : ∀ a b, cmp a b = .eq → a = b) :
    ∀ {xs ys : List α}, lexCmp cmp xs ys = .eq → xs = ys := by
  intro xs
  induction xs with
  | nil =>
    intro ys h
    cases ys with
    | nil => rfl
    | cons b bs => exact absurd h (by simp [lexCmp])
  | cons a as ih =>
    intro ys h
    cases ys with
    | nil => exact absurd h (by simp [lexCmp])
    | cons b bs =>
      obtain ⟨hab, htail⟩ := Ordering.then_eq_eq.mp h
      rw [hinj a b hab, ih htail]

theorem charCmp_lawful : IsLawfulCmp charCmp := by
  refine ⟨?_, ?_, ?_⟩
  · intro a b; exact natCmp_lawful.swap_eq a.toNat b.toNat
  · intro a b c h1 h2; exact natCmp_lawful.lt_trans h1 h2
  · intro a b c h1
    unfold charCmp
    rw [natCmp_eq_eq.mp h1]

theorem charCmp_eq_eq {a b : Char} (h : charCmp a b = .eq) : a = b :=
  Char.eq_of_val_eq (UInt32.ext (natCmp_eq_eq.mp h))

theorem strCmp_lawful : IsLawfulCmp strCmp := by
  refine ⟨?_, ?_, ?_⟩
  · intro a b; exact (lexCmp_lawful charCmp_lawful).swap_eq a.data b.data
  · intro a b c h1 h2; exact (lexCmp_lawful charCmp_lawful).lt_trans h1 h2
  · intro a b c h1
    unfold strCmp
    rw [lexCmp_eq_eq_of (fun x y hxy => charCmp_eq_eq hxy) h1]

theorem strCmp_eq_eq {a b : String} (h : strCmp a b = .eq) : a = b :=
  String.ext (lexCmp_eq_eq_of (fun x y hxy => charCmp_eq_eq hxy) h)

theorem pathCmp_lawful : IsLawfulCmp pathCmp := lexCmp_lawful strCmp_lawful

theorem pathCmp_eq_eq {a b : VPath} (h : pathCmp a b = .eq) : a = b :=
  lexCmp_eq_eq_of (fun x y hxy => strCmp_eq_eq hxy) h

theorem pathLe_trans {a b c : VPath} (h1 : pathLe a b = true)
    (h2 : pathLe b c = true) : pathLe a c = true :=
  cmpLe_trans pathCmp_lawful a b c h1 h2

theorem pathLe_total (a b : VPath) : (pathLe a b || pathLe b a) = true :=
  cmpLe_total pathCmp_lawful a b

theorem pathLt_of_le_ne {a b : VPath} (h1 : pathLe a b = true) (h2 : a ≠ b) :
    pathCmp a b = .lt := by
  rcases hc : pathCmp a b with _ | _ | _
  · rfl
  · exact absurd (pathCmp_eq_eq hc) h2
  · exact absurd hc (not_gt_of_cmpLe h1)

theorem dedupLoop_sublist {α : Type} [DecidableEq α] (prev : α) :
    ∀ l : List α, (dedupLoop prev l).Sublist l := by
  intro l
  induction l generalizing prev with
  | nil => simp [dedupLoop]
  | cons b t ih =>
    unfold dedupLoop
    by_cases hb : b = prev
    · rw [if_pos hb]
      exact (ih prev).cons b
    · rw [if_neg hb]
      exact (ih b).cons₂ b

theorem dedupLoop_eq_self {α : Type} [DecidableEq α] {prev : α} {l : List α}
    (hmem : prev ∉ l) (hnd : l.Nodup) : dedupLoop prev l = l := by
  induction l generalizing prev with
  | nil => rfl
  | cons b t ih =>
    unfold dedupLoop
    have hb : b ≠ prev := fun h => hmem (h ▸ List.mem_cons_self b t)
    rw [if_neg hb, ih (List.nodup_cons.mp hnd).1 (List.nodup_cons.mp hnd).2]

theorem rustDedup_eq_self {α : Type} [DecidableEq α] {l : List α}
    (hnd : l.Nodup) : rustDedup l = l := by
  cases l with
  | nil => rfl
  | cons a t =>
    show a :: dedupLoop a t = a :: t
    rw [dedupLoop_eq_self (List.nodup_cons.mp hnd).1 (List.nodup_cons.mp hnd).2]

theorem dedupLoop_nodup {prev : VPath} {l : List VPath}
    (hs : List.Pairwise (fun a b => pathLe a b = true) (prev :: l)) :
    (dedupLoop prev l).Nodup ∧ prev ∉ dedupLoop prev l := by
  induction l generalizing prev with
  | nil => simp [dedupLoop]
  | cons b t ih =>
    unfold dedupLoop
    by_cases hb : b = prev
    · rw [if_pos hb]
      refine ih ?_
      subst hb
      exact (List.pairwise_cons.mpr
        ⟨fun x hx => (List.pairwise_cons.mp ((List.pairwise_cons.mp hs).2)).1 x hx,
          (List.pairwise_cons.mp ((List.pairwise_cons.mp hs).2)).2⟩)
    · rw [if_neg hb]
      obtain ⟨hnd, hni⟩ := ih (List.pairwise_cons.mp hs).2
      have hprevb : pathLe prev b = true :=
        (List.pairwise_cons.mp hs).1 b (List.mem_cons_self b t)
      refine ⟨List.nodup_cons.mpr ⟨hni, hnd⟩, ?_⟩
      intro hmem
      rcases List.mem_cons.mp hmem with h1 | h1
      · exact hb h1.symm
      · have hsub : prev ∈ t := (dedupLoop_sublist b t).subset h1
        have hbprev : pathLe b prev = true :=
          (List.pairwise_cons.mp (List.pairwise_cons.mp hs).2).1 prev hsub
        have : pathCmp prev b = .lt := pathLt_of_le_ne hprevb (fun h => hb h.symm)
        have hgt : pathCmp b prev = .gt := by
          rw [pathCmp_lawful.swap_eq prev b, this]
          rfl
        exact absurd hgt (not_gt_of_cmpLe hbprev)

theorem sortDedup_sorted (l : List VPath) :
    List.Pairwise (fun a b => pathLe a b = true) (sortDedup l) := by
  have hms : List.Pairwise (fun a b => pathLe a b = true) (sortBy pathLe l) :=
    sortBy_sorted pathLe (fun a b c => cmpLe_trans pathCmp_lawful a b c)
      (fun a b => cmpLe_total pathCmp_lawful a b) l
  cases hl : sortBy pathLe l with
  | nil => simp [sortDedup, hl, rustDedup]
  | cons a t =>
    rw [hl] at hms
    have hsub : (rustDedup (a :: t)).Sublist (a :: t) := by
      unfold rustDedup
      exact (dedupLoop_sublist a t).cons₂ a
    unfold sortDedup
    rw [hl]
    exact List.Pairwise.sublist hsub hms

theorem sortDedup_nodup (l : List VPath) : (sortDedup l).Nodup := by
  have hms : List.Pairwise (fun a b => pathLe a b = true) (sortBy pathLe l) :=
    sortBy_sorted pathLe (fun a b c => cmpLe_trans pathCmp_lawful a b c)
      (fun a b => cmpLe_total pathCmp_lawful a b) l
  cases hl : sortBy pathLe l with
  | nil => simp [sortDedup, hl, rustDedup]
  | cons a t =>
    rw [hl] at hms
    unfold sortDedup
    rw [hl]
    obtain ⟨hnd, hni⟩ := dedupLoop_nodup hms
    exact List.nodup_cons.mpr ⟨hni, hnd⟩

theorem sortBy_paths_eq_self {l : List VPath}
    (hs : List.Pairwise (fun a b => pathLe a b = true) l) :
    sortBy pathLe l = l := by
  haveI : IsAntisymm VPath (fun a b => pathLe a b = true) := ⟨by
    intro a b h1 h2
    by_contra hne
    have hlt : pathCmp a b = .lt := pathLt_of_le_ne h1 hne
    have hgt : pathCmp b a = .gt := by
      rw [pathCmp_lawful.swap_eq a b, hlt]; rfl
    exact absurd hgt (not_gt_of_cmpLe h2)⟩
  have hms : List.Pairwise (fun a b => pathLe a b = true) (sortBy pathLe l) :=
    sortBy_sorted pathLe (fun a b c => cmpLe_trans pathCmp_lawful a b c)
      (fun a b => cmpLe_total pathCmp_lawful a b) l
  exact List.eq_of_perm_of_sorted (sortBy_perm pathLe l) hms hs

theorem sortDedup_eq_self {l : List VPath}
    (hs : List.Pairwise (fun a b => pathLe a b = true) l) (hnd : l.Nodup) :
    sortDedup l = l := by
  unfold sortDedup
  rw [sortBy_paths_eq_self hs, rustDedup_eq_self hnd]

theorem foldr_min_le_init (b : Nat) (l : List Nat) : l.foldr min b ≤ b := by
  induction l with
  | nil => simp
  | cons x t ih => simpa using Or.inr ih

theorem foldr_min_init (a b : Nat) (l : List Nat) :
    min a (l.foldr min b) = l.foldr min (min a b) := by
  induction l with
  | nil => rfl
  | cons x t ih =>
    simp only [List.foldr_cons, ← ih]
    omega

theorem foldr_min_le_mem {x : Nat} {l : List Nat} (b : Nat) (h : x ∈ l) :
    l.foldr min b ≤ x := by
  induction l with
  | nil => simp at h
  | cons y t ih =>
    rcases List.mem_cons.mp h with rfl | hmem
    · simp
    · simpa using Or.inr (ih hmem)

theorem foldr_min_attained (b : Nat) (l : List Nat) :
    l.foldr min b = b ∨ l.foldr min b ∈ l := by
  induction l with
  | nil => exact Or.inl rfl
  | cons x t ih =>
    simp only [List.foldr_cons]
    rcases Nat.le_total x (t.foldr min b) with h | h
    · rw [Nat.min_eq_left h]
      exact Or.inr (List.mem_cons_self x t)
    · rw [Nat.min_eq_right h]
      rcases ih with h1 | h1
      · exact Or.inl h1
      · exact Or.inr (List.mem_cons_of_mem x h1)

theorem bestLoop_spec (rest : List VPath) : ∀ (bl : Nat) (best : List VPath),
    bestLoop (some bl) best rest =
      (if (rest.map pathStrLen).foldr min bl = bl then best else []) ++
        rest.filter
          (fun c => pathStrLen c == (rest.map pathStrLen).foldr min bl) := by
  induction rest with
  | nil =>
    intro bl best
    simp [bestLoop]
  | cons c t ih =>
    intro bl best
    have hA : ((c :: t).map pathStrLen).foldr min bl =
        min (pathStrLen c) ((t.map pathStrLen).foldr min bl) := by
      simp
    by_cases h1 : pathStrLen c < bl
    · have hloop : bestLoop (some bl) best (c :: t) =
          bestLoop (some (pathStrLen c)) [c] t := by
        simp only [bestLoop]
        rw [if_pos h1]
      rw [hloop, ih (pathStrLen c) [c]]
      have hMeq : (t.map pathStrLen).foldr min (pathStrLen c) =
          ((c :: t).map pathStrLen).foldr min bl := by
        rw [hA, foldr_min_init, Nat.min_eq_left (Nat.le_of_lt h1)]
      rw [← hMeq]
      have hmle : (t.map pathStrLen).foldr min (pathStrLen c) ≤ pathStrLen c :=
        foldr_min_le_init _ _
      rw [if_neg (show ¬((t.map pathStrLen).foldr min (pathStrLen c) = bl) by
        omega)]
      simp only [List.filter_cons, List.nil_append]
      by_cases hc : pathStrLen c = (t.map pathStrLen).foldr min (pathStrLen c)
      · rw [if_pos (show (t.map pathStrLen).foldr min (pathStrLen c) =
            pathStrLen c from hc.symm),
          if_pos (show (pathStrLen c ==
            (t.map pathStrLen).foldr min (pathStrLen c)) = true by
              simpa using hc)]
        rfl
      · rw [if_neg (show ¬((t.map pathStrLen).foldr min (pathStrLen c) =
            pathStrLen c) from fun hx => hc hx.symm),
          if_neg (show ¬((pathStrLen c ==
            (t.map pathStrLen).foldr min (pathStrLen c)) = true) by
              simpa using hc)]
        rfl
    · by_cases h2 : pathStrLen c = bl
      · have hloop : bestLoop (some bl) best (c :: t) =
            bestLoop (some bl) (best ++ [c]) t := by
          simp only [bestLoop]
          rw [if_neg h1, if_pos h2]
        rw [hloop, ih bl (best ++ [c])]
        have hAle : (t.map pathStrLen).foldr min bl ≤ bl := foldr_min_le_init _ _
        have hM : ((c :: t).map pathStrLen).foldr min bl =
            (t.map pathStrLen).foldr min bl := by
          rw [hA, h2, Nat.min_eq_right hAle]
        rw [hM]
        simp only [List.filter_cons]
        by_cases hAb : (t.map pathStrLen).foldr min bl = bl
        · rw [if_pos hAb, if_pos hAb,
            if_pos (show (pathStrLen c ==
              (t.map pathStrLen).foldr min bl) = true by simp [h2, hAb])]
          simp
        · rw [if_neg hAb, if_neg hAb,
            if_neg (show ¬((pathStrLen c ==
              (t.map pathStrLen).foldr min bl) = true) by
                simp only [beq_iff_eq]; omega)]
      · have h3 : bl < pathStrLen c := by omega
        have hloop : bestLoop (some bl) best (c :: t) =
            bestLoop (some bl) best t := by
          simp only [bestLoop]
          rw [if_neg h1, if_neg h2]
        rw [hloop, ih bl best]
        have hAle : (t.map pathStrLen).foldr min bl ≤ bl := foldr_min_le_init _ _
        have hM : ((c :: t).map pathStrLen).foldr min bl =
            (t.map pathStrLen).foldr min bl := by
          rw [hA]
          omega
        rw [hM]
        simp only [List.filter_cons]
        rw [if_neg (show ¬((pathStrLen c ==
            (t.map pathStrLen).foldr min bl) = true) by
              simp only [beq_iff_eq]; omega)]

theorem bestLoop_none_eq_filter (c : VPath) (rest : List VPath) :
    bestLoop none [] (c :: rest) =
      (c :: rest).filter (fun d => pathStrLen d == minStrLen (c :: rest)) := by
  have h0 : bestLoop none [] (c :: rest) =
      bestLoop (some (pathStrLen c)) [c] rest := rfl
  rw [h0, bestLoop_spec rest (pathStrLen c) [c]]
  have hmin : minStrLen (c :: rest) = (rest.map pathStrLen).foldr min (pathStrLen c) := rfl
  rw [← hmin]
  simp only [List.filter_cons]
  by_cases hc : pathStrLen c = minStrLen (c :: rest)
  · rw [if_pos hc.symm, if_pos (by simpa using hc)]
    rfl
  · rw [if_neg (fun h => hc h.symm), if_neg (by simpa using hc)]
    rfl

theorem minStrLen_le {l : List VPath} {d : VPath} (hd : d ∈ l) :
    minStrLen l ≤ pathStrLen d := by
  cases l with
  | nil => simp at hd
  | cons c t =>
    rcases List.mem_cons.mp hd with rfl | hmem
    · exact foldr_min_le_init _ _
    · exact foldr_min_le_mem _ (List.mem_map_of_mem pathStrLen hmem)

theorem minStrLen_attained {l : List VPath} (h : l ≠ []) :
    ∃ d ∈ l, pathStrLen d = minStrLen l := by
  cases l with
  | nil => exact absurd rfl h
  | cons c t =>
    rcases foldr_min_attained (pathStrLen c) (t.map pathStrLen) with h1 | h1
    · exact ⟨c, List.mem_cons_self c t, h1.symm⟩
    · obtain ⟨d, hd, hde⟩ := List.mem_map.mp h1
      exact ⟨d, List.mem_cons_of_mem c hd, hde⟩

theorem filter_minStrLen_eq_shortestOf (pool : List VPath) :
    pool.filter (fun c => pathStrLen c == minStrLen pool) = shortestOf pool := by
  unfold shortestOf
  apply List.filter_congr
  intro x hx
  have hiff : (pathStrLen x == minStrLen pool) = true ↔
      (decide (∀ d ∈ pool, pathStrLen x ≤ pathStrLen d)) = true := by
    constructor
    · intro hb
      have hm : pathStrLen x = minStrLen pool := by simpa using hb
      simp only [decide_eq_true_eq]
      intro d hd
      rw [hm]
      exact minStrLen_le hd
    · intro hd
      simp only [decide_eq_true_eq] at hd
      have h1 : minStrLen pool ≤ pathStrLen x := minStrLen_le hx
      obtain ⟨d0, hd0, hd0e⟩ := minStrLen_attained (List.ne_nil_of_mem hx)
      have h2 : pathStrLen x ≤ pathStrLen d0 := hd d0 hd0
      have : pathStrLen x = minStrLen pool := by omega
      simpa using this
  rcases hb : (pathStrLen x == minStrLen pool) with _ | _
  · rcases hd : (decide (∀ d ∈ pool, pathStrLen x ≤ pathStrLen d)) with _ | _
    · rfl
    · exact absurd (hiff.mpr hd) (by simp [hb])
  · rw [hiff.mp hb]

theorem pick_shortest_or_ambiguous_spec (pool : List VPath)
    (hs : List.Pairwise (fun a b => pathLe a b = true) pool)
    (hnd : pool.Nodup) (hne : pool ≠ []) :
    pick_shortest_or_ambiguous pool =
      match shortestOf pool with
      | [u] => ResolveResult.Resolved u
      | bs => ResolveResult.Ambiguous bs := by
  unfold pick_shortest_or_ambiguous
  rw [sortDedup_eq_self hs hnd]
  cases pool with
  | nil => exact absurd rfl hne
  | cons c t =>
    cases t with
    | nil =>
      have hf : shortestOf [c] = [c] := by
        unfold shortestOf
        simp
      rw [hf]
    | cons c2 t2 =>
      show (match bestLoop none [] (c :: c2 :: t2) with
        | [u] => ResolveResult.Resolved u
        | best => ResolveResult.Ambiguous best) = _
      rw [bestLoop_none_eq_filter, filter_minStrLen_eq_shortestOf]

/-- **C3.** With at least two distinct candidates, tie-breaking restricts to
the candidates sharing the source's parent directory whenever any exist, and
then returns `Resolved` of the unique shortest (by path-string byte length)
candidate, or `Ambiguous` of the sorted list of the equally shortest
candidates. -/
theorem pick_prefer_source_spec (candidates : List VPath) (source : VPath)
    (hlen : 2 ≤ (sortDedup candidates).length) :
    pick_prefer_source candidates source =
      (match shortestOf (tieBreakPool candidates source) with
       | [u] => ResolveResult.Resolved u
       | bs => ResolveResult.Ambiguous bs) ∧
    List.Pairwise (fun a b => pathCmp a b = Ordering.lt)
      (shortestOf (tieBreakPool candidates source)) := by
  have hcs_sorted := sortDedup_sorted candidates
  have hcs_nodup := sortDedup_nodup candidates
  have hcs_ne : sortDedup candidates ≠ [] := by
    intro h
    rw [h] at hlen
    simp at hlen
  have hnotle : ¬ ((sortDedup candidates).length ≤ 1) := by omega
  have hpool_sorted : List.Pairwise (fun a b => pathLe a b = true)
      (tieBreakPool candidates source) := by
    unfold tieBreakPool
    simp only
    split
    · exact hcs_sorted
    · exact List.Pairwise.filter _ hcs_sorted
  have hpool_nodup : (tieBreakPool candidates source).Nodup := by
    unfold tieBreakPool
    simp only
    split
    · exact hcs_nodup
    · exact List.Nodup.filter _ hcs_nodup
  have hpool_ne : tieBreakPool candidates source ≠ [] := by
    unfold tieBreakPool
    simp only
    split
    · exact hcs_ne
    · rename_i hne2
      intro h
      rw [h] at hne2
      exact hne2 rfl
  constructor
  · have hmain : pick_prefer_source candidates source =
        pick_shortest_or_ambiguous (tieBreakPool candidates source) := by
      unfold pick_prefer_source tieBreakPool
      simp only
      rw [if_neg hnotle]
      by_cases hsd : ((sortDedup candidates).filter
          (fun c => decide (parentDir c = parentDir source))).isEmpty
      · rw [if_neg (not_not_intro hsd), if_pos hsd]
      · rw [if_pos hsd, if_neg hsd]
    rw [hmain]
    exact pick_shortest_or_ambiguous_spec _ hpool_sorted hpool_nodup hpool_ne
  · have hand := List.Pairwise.and hpool_sorted hpool_nodup
    have himp : List.Pairwise (fun a b => pathCmp a b = Ordering.lt)
        (tieBreakPool candidates source) :=
      hand.imp (fun hab => pathLt_of_le_ne hab.1 hab.2)
    exact List.Pairwise.filter _ himp

theorem pick_prefer_source_spec_witness :
    2 ≤ (sortDedup [["notes", "dup.md"], ["other", "dup.md"]]).length ∧
    (pick_prefer_source [["notes", "dup.md"], ["other", "dup.md"]]
        ["notes", "source.md"] =
      (match shortestOf (tieBreakPool [["notes", "dup.md"], ["other", "dup.md"]]
          ["notes", "source.md"]) with
       | [u] => ResolveResult.Resolved u
       | bs => ResolveResult.Ambiguous bs) ∧
    List.Pairwise (fun a b => pathCmp a b = Ordering.lt)
      (shortestOf (tieBreakPool [["notes", "dup.md"], ["other", "dup.md"]]
        ["notes", "source.md"]))) :=
  ⟨by decide, pick_prefer_source_spec _ _ (by decide)⟩

theorem intCmp_eq_lt {a b : Int} : intCmp a b = .lt ↔ a < b := by
  unfold intCmp
  by_cases h1 : a < b <;> by_cases h2 : b < a <;> simp [h1, h2]

theorem intCmp_eq_eq {a b : Int} : intCmp a b = .eq ↔ a = b := by
  unfold intCmp
  by_cases h1 : a < b <;> by_cases h2 : b < a <;> simp [h1, h2] <;> omega

theorem intCmp_lawful : IsLawfulCmp intCmp := by
  refine ⟨?_, ?_, ?_⟩
  · intro a b
    unfold intCmp
    by_cases h1 : a < b <;> by_cases h2 : b < a <;>
      simp [h1, h2, Ordering.swap] <;> omega
  · intro a b c h1 h2
    exact intCmp_eq_lt.mpr (lt_trans (intCmp_eq_lt.mp h1) (intCmp_eq_lt.mp h2))
  · intro a b c h1
    rw [intCmp_eq_eq.mp h1]

theorem svCmp_lawful : IsLawfulCmp svCmp := by
  refine ⟨?_, ?_, ?_⟩
  · intro a b
    rcases a with n1 | s1 <;> rcases b with n2 | s2
    · exact intCmp_lawful.swap_eq n1 n2
    · rfl
    · rfl
    · exact strCmp_lawful.swap_eq s1 s2
  · intro a b c h1 h2
    rcases a with n1 | s1 <;> rcases b with n2 | s2 <;> rcases c with n3 | s3 <;>
      simp [svCmp] at h1 h2 ⊢
    · exact intCmp_lawful.lt_trans h1 h2
    · exact strCmp_lawful.lt_trans h1 h2
  · intro a b c h1
    rcases a with n1 | s1 <;> rcases b with n2 | s2 <;>
      simp [svCmp] at h1
    · rcases c with n3 | s3 <;> simp [svCmp]
      rw [intCmp_eq_eq.mp h1]
    · rcases c with n3 | s3 <;> simp [svCmp]
      rw [strCmp_eq_eq h1]

theorem dirSvCmp_lawful (dir : SortDir) : IsLawfulCmp (dirSvCmp dir) := by
  cases dir
  · exact svCmp_lawful
  · refine ⟨?_, ?_, ?_⟩
    · intro a b
      exact svCmp_lawful.swap_eq b a
    · intro a b c h1 h2
      exact svCmp_lawful.lt_trans h2 h1
    · intro a b c h1
      have h1x : svCmp b a = Ordering.eq := h1
      have hab : svCmp a b = .eq := by
        rcases h : svCmp a b with _ | _ | _
        · rw [svCmp_lawful.swap_eq a b, h] at h1x
          exact absurd h1x (by decide)
        · rfl
        · rw [svCmp_lawful.swap_eq a b, h] at h1x
          exact absurd h1x (by decide)
      exact svCmp_lawful.eq_right hab

theorem fieldSortCmp_lawful (notes : VPath → Option FieldMap) (key : String)
    (dir : SortDir) : IsLawfulCmp (fieldSortCmp notes key dir) := by
  have hsv := dirSvCmp_lawful dir
  refine ⟨?_, ?_, ?_⟩
  · intro a b
    unfold fieldSortCmp
    rcases ha : sortValueOf notes key a with _ | x <;>
      rcases hb : sortValueOf notes key b with _ | y <;> dsimp only
    · exact pathCmp_lawful.swap_eq a b
    · rfl
    · rfl
    · rw [Ordering.then_swap, hsv.swap_eq x y, pathCmp_lawful.swap_eq a b]
  · intro a b c h1 h2
    unfold fieldSortCmp at h1 h2 ⊢
    rcases ha : sortValueOf notes key a with _ | x <;>
      rcases hb : sortValueOf notes key b with _ | y <;>
        rcases hc : sortValueOf notes key c with _ | z <;>
          rw [ha, hb] at h1 <;> rw [hb, hc] at h2 <;>
            (try dsimp only at h1) <;> (try dsimp only at h2) <;>
              (try dsimp only)
    · exact pathCmp_lawful.lt_trans h1 h2
    · exact absurd h2 (by decide)
    · exact absurd h1 (by decide)
    · exact absurd h1 (by decide)
    · exact absurd h2 (by decide)
    · rcases Ordering.then_eq_lt.mp h1 with hxy | ⟨hxy, hp1⟩ <;>
        rcases Ordering.then_eq_lt.mp h2 with hyz | ⟨hyz, hp2⟩
      · exact Ordering.then_eq_lt.mpr (Or.inl (hsv.lt_trans hxy hyz))
      · exact Ordering.then_eq_lt.mpr
          (Or.inl (by rw [← hsv.eq_right hyz]; exact hxy))
      · exact Ordering.then_eq_lt.mpr
          (Or.inl (by rw [hsv.eq_left hxy]; exact hyz))
      · exact Ordering.then_eq_lt.mpr (Or.inr
          ⟨by rw [hsv.eq_left hxy]; exact hyz, pathCmp_lawful.lt_trans hp1 hp2⟩)
  · intro a b c h1
    unfold fieldSortCmp at h1 ⊢
    rcases ha : sortValueOf notes key a with _ | x <;>
      rcases hb : sortValueOf notes key b with _ | y <;>
        rw [ha, hb] at h1 <;> (try dsimp only at h1) <;> (try dsimp only)
    · rcases hc : sortValueOf notes key c with _ | z <;> (try dsimp only)
      exact pathCmp_lawful.eq_left h1
    · exact absurd h1 (by decide)
    · exact absurd h1 (by decide)
    · obtain ⟨hxy, hp⟩ := Ordering.then_eq_eq.mp h1
      rcases hc : sortValueOf notes key c with _ | z <;> (try dsimp only)
      rw [hsv.eq_left hxy, pathCmp_lawful.eq_left hp]

/-- **C8.** In a notes query sorted by a field key, every result path whose
note lacks a usable sort value for that key is ordered after all result
paths that have one — for both ascending and descending direction — and any
two result paths with equal sort keys (including both missing) appear in
path-ascending order. -/
theorem sort_candidates_field_order (notes : VPath → Option FieldMap)
    (key : String) (dir : SortDir) (paths : List VPath) :
    List.Pairwise (fun a b =>
        (sortValueOf notes key a = none → sortValueOf notes key b = none) ∧
        (sortValueOf notes key a = sortValueOf notes key b →
          pathCmp a b ≠ Ordering.gt))
      (sort_candidates notes (.Field key) dir paths) := by
  have hlaw := fieldSortCmp_lawful notes key dir
  have hsorted : List.Pairwise
      (fun a b => cmpLe (fieldSortCmp notes key dir) a b = true)
      (sort_candidates notes (.Field key) dir paths) := by
    show List.Pairwise _ (sortBy _ paths)
    exact sortBy_sorted (cmpLe (fieldSortCmp notes key dir))
      (fun a b c => cmpLe_trans hlaw a b c) (fun a b => cmpLe_total hlaw a b)
      paths
  refine hsorted.imp ?_
  intro a b hab
  have hne : fieldSortCmp notes key dir a b ≠ Ordering.gt :=
    not_gt_of_cmpLe hab
  constructor
  · intro hna
    rcases hb : sortValueOf notes key b with _ | y
    · rfl
    · exfalso
      apply hne
      unfold fieldSortCmp
      rw [hna, hb]
  · intro heq
    rcases hb : sortValueOf notes key a with _ | x
    · have hbn : sortValueOf notes key b = none := by rw [← heq, hb]
      have hpc : fieldSortCmp notes key dir a b = pathCmp a b := by
        unfold fieldSortCmp
        rw [hb, hbn]
      rw [← hpc]
      exact hne
    · have hbx : sortValueOf notes key b = some x := by rw [← heq, hb]
      have hrefl : dirSvCmp dir x x = .eq := (dirSvCmp_lawful dir).refl_eq x
      have hpc : fieldSortCmp notes key dir a b = pathCmp a b := by
        unfold fieldSortCmp
        rw [hb, hbx]
        show (dirSvCmp dir x x).then (pathCmp a b) = pathCmp a b
        rw [hrefl]
        rfl
      rw [← hpc]
      exact hne

theorem emptyIndex_wf : IndexWF emptyIndex := by
  refine ⟨?_, ?_, ?_⟩
  · intro p; rfl
  · intro t p; simp [emptyIndex]
  · intro t s h; exact absurd h (by simp [emptyIndex])

theorem noteDataOf_tags_eq (kind : FileKind) (pr : ParsedLite) :
    (noteDataOf kind pr).1 =
      (match (noteDataOf kind pr).2.2 with
       | some n => n.tags
       | none => ∅) := by
  cases kind <;> rfl

theorem upsert_file_eq (V : VaultM) (parse : String → ParsedLite)
    (S : IndexState) (p : VPath) (m sz : Nat) (c : String) :
    (upsert_file V parse S p m sz c).1 =
      { files := upd S.files p
          (some ⟨file_kind_from_path V p, m, sz⟩),
        notes := upd S.notes p
          (noteDataOf (file_kind_from_path V p) (parse c)).2.2,
        file_tags := upd S.file_tags p
          (some (noteDataOf (file_kind_from_path V p) (parse c)).1),
        file_links := upd S.file_links p
          (some (noteDataOf (file_kind_from_path V p) (parse c)).2.1),
        tags := fun t =>
          if t ∈ (noteDataOf (file_kind_from_path V p) (parse c)).1 \
              (S.file_tags p).getD ∅ then
            some ((S.tags t).getD ∅ ∪ {p})
          else if t ∈ (S.file_tags p).getD ∅ \
              (noteDataOf (file_kind_from_path V p) (parse c)).1 then
            match S.tags t with
            | some s => if s.erase p = ∅ then none else some (s.erase p)
            | none => none
          else S.tags t } :=
  rfl

theorem upsert_file_wf (V : VaultM) (parse : String → ParsedLite)
    (S : IndexState) (p : VPath) (m sz : Nat) (c : String)
    (h : IndexWF S) : IndexWF (upsert_file V parse S p m sz c).1 := by
  obtain ⟨h1, h2, h3⟩ := h
  rw [upsert_file_eq]
  refine ⟨?_, ?_, ?_⟩
  · intro q
    by_cases hq : q = p
    · subst hq
      simp only [upd, if_pos rfl, Option.getD_some]
      exact noteDataOf_tags_eq _ _
    · simp only [upd, if_neg hq]
      exact h1 q
  · intro t q
    simp only
    by_cases hadd : t ∈ (noteDataOf (file_kind_from_path V p) (parse c)).1 \
        (S.file_tags p).getD ∅
    · rw [if_pos hadd]
      by_cases hq : q = p
      · subst hq
        simp only [upd, if_pos rfl, Option.getD_some, Finset.mem_union,
          Finset.mem_singleton]
        constructor
        · intro _
          exact (Finset.mem_sdiff.mp hadd).1
        · intro _
          exact Or.inr trivial
      · simp only [upd, if_neg hq, Option.getD_some, Finset.mem_union,
          Finset.mem_singleton]
        rw [show ((q ∈ (S.tags t).getD ∅ ∨ q = p) ↔ q ∈ (S.tags t).getD ∅)
          from by tauto]
        exact h2 t q
    · rw [if_neg hadd]
      by_cases hrem : t ∈ (S.file_tags p).getD ∅ \
          (noteDataOf (file_kind_from_path V p) (parse c)).1
      · rw [if_pos hrem]
        rcases hst : S.tags t with _ | s
        · exfalso
          have hq2 := (h2 t p).mpr (Finset.mem_sdiff.mp hrem).1
          rw [hst] at hq2
          simp at hq2
        · dsimp only
          have hgd : ((if s.erase p = ∅ then none
              else some (s.erase p) : Option (Finset VPath))).getD ∅ =
              s.erase p := by
            by_cases he : s.erase p = ∅ <;> simp [he]
          rw [hgd]
          by_cases hq : q = p
          · subst hq
            simp only [upd, if_pos rfl, Option.getD_some]
            constructor
            · intro hmem
              exact absurd rfl (Finset.mem_erase.mp hmem).1
            · intro hmem
              exact absurd hmem (Finset.mem_sdiff.mp hrem).2
          · simp only [upd, if_neg hq]
            rw [Finset.mem_erase]
            have := h2 t q
            rw [hst] at this
            simp only [Option.getD_some] at this
            rw [← this]
            tauto
      · rw [if_neg hrem]
        by_cases hq : q = p
        · subst hq
          simp only [upd, eq_self_iff_true, if_true, Option.getD_some]
          have hiff : t ∈ (S.file_tags q).getD ∅ ↔
              t ∈ (noteDataOf (file_kind_from_path V q) (parse c)).1 := by
            constructor
            · intro hmem
              by_contra hnot
              exact hrem (Finset.mem_sdiff.mpr ⟨hmem, hnot⟩)
            · intro hmem
              by_contra hnot
              exact hadd (Finset.mem_sdiff.mpr ⟨hmem, hnot⟩)
          rw [← hiff]
          exact h2 t q
        · simp only [upd, if_neg hq]
          exact h2 t q
  · intro t s
    simp only
    by_cases hadd : t ∈ (noteDataOf (file_kind_from_path V p) (parse c)).1 \
        (S.file_tags p).getD ∅
    · rw [if_pos hadd]
      intro hs
      simp only [Option.some.injEq] at hs
      subst hs
      intro hemp
      have : p ∈ (∅ : Finset VPath) := by
        rw [← hemp]
        simp
      simp at this
    · rw [if_neg hadd]
      by_cases hrem : t ∈ (S.file_tags p).getD ∅ \
          (noteDataOf (file_kind_from_path V p) (parse c)).1
      · rw [if_pos hrem]
        rcases hst : S.tags t with _ | s0
        · dsimp only
          intro hcontra
          exact absurd hcontra (by simp)
        · dsimp only
          by_cases he : s0.erase p = ∅
          · rw [if_pos he]
            intro hcontra
            exact absurd hcontra (by simp)
          · rw [if_neg he]
            intro hs
            simp only [Option.some.injEq] at hs
            subst hs
            exact he
      · rw [if_neg hrem]
        exact h3 t s

theorem remove_path_wf (S : IndexState) (p : VPath) (h : IndexWF S) :
    IndexWF (remove_path S p).1 := by
  obtain ⟨h1, h2, h3⟩ := h
  refine ⟨?_, ?_, ?_⟩
  · intro q
    by_cases hq : q = p
    · subst hq
      simp [remove_path, upd]
    · simp only [remove_path, upd, if_neg hq]
      exact h1 q
  · intro t q
    show q ∈ ((if t ∈ (S.file_tags p).getD ∅ then
        match S.tags t with
        | some s => if s.erase p = ∅ then none else some (s.erase p)
        | none => none
      else S.tags t)).getD ∅ ↔ _
    by_cases hold : t ∈ (S.file_tags p).getD ∅
    · rw [if_pos hold]
      rcases hst : S.tags t with _ | s
      · exfalso
        have hq2 := (h2 t p).mpr hold
        rw [hst] at hq2
        simp at hq2
      · dsimp only
        have hgd : ((if s.erase p = ∅ then none
            else some (s.erase p) : Option (Finset VPath))).getD ∅ =
            s.erase p := by
          by_cases he : s.erase p = ∅ <;> simp [he]
        rw [hgd]
        by_cases hq : q = p
        · subst hq
          simp only [remove_path, upd, eq_self_iff_true, if_true,
            Option.getD_none]
          constructor
          · intro hmem
            exact absurd rfl (Finset.mem_erase.mp hmem).1
          · intro hmem
            simp at hmem
        · simp only [remove_path, upd, if_neg hq]
          rw [Finset.mem_erase]
          have hq2 := h2 t q
          rw [hst] at hq2
          simp only [Option.getD_some] at hq2
          rw [← hq2]
          tauto
    · rw [if_neg hold]
      by_cases hq : q = p
      · subst hq
        simp only [remove_path, upd, eq_self_iff_true, if_true,
          Option.getD_none]
        constructor
        · intro hmem
          exact absurd ((h2 t q).mp hmem) hold
        · intro hmem
          simp at hmem
      · simp only [remove_path, upd, if_neg hq]
        exact h2 t q
  · intro t s
    show (if t ∈ (S.file_tags p).getD ∅ then
        match S.tags t with
        | some s => if s.erase p = ∅ then none else some (s.erase p)
        | none => none
      else S.tags t) = some s → s ≠ ∅
    by_cases hold : t ∈ (S.file_tags p).getD ∅
    · rw [if_pos hold]
      rcases hst : S.tags t with _ | s0
      · dsimp only
        intro hcontra
        exact absurd hcontra (by simp)
      · dsimp only
        by_cases he : s0.erase p = ∅
        · rw [if_pos he]
          intro hcontra
          exact absurd hcontra (by simp)
        · rw [if_neg he]
          intro hs
          simp only [Option.some.injEq] at hs
          subst hs
          exact he
    · rw [if_neg hold]
      exact h3 t s

theorem applyOp_wf (V : VaultM) (parse : String → ParsedLite) (S : IndexState)
    (op : IndexOp) (h : IndexWF S) : IndexWF (applyOp V parse S op) := by
  cases op with
  | remove p => exact remove_path_wf S p h
  | upsert fs p =>
    show IndexWF (upsert_path V parse fs S p).1
    unfold upsert_path
    by_cases hind : ¬ (V.indexable p = true)
    · rw [if_pos hind]
      exact h
    · rw [if_neg hind]
      cases hfs : fs p with
      | missing => exact h
      | dir => exact h
      | file m sz c => exact upsert_file_wf V parse S p m sz c h

theorem runOps_wf (V : VaultM) (parse : String → ParsedLite)
    (ops : List IndexOp) : IndexWF (runOps V parse ops) := by
  suffices h : ∀ S, IndexWF S → IndexWF (ops.foldl (applyOp V parse) S) from
    h emptyIndex emptyIndex_wf
  induction ops with
  | nil =>
    intro S h
    exact h
  | cons op rest ih =>
    intro S h
    exact ih _ (applyOp_wf V parse S op h)

/-- **C1.** After any sequence of `upsert_path` / `remove_path` operations
starting from the empty index, a path `p` belongs to the reverse tag entry
`tags[t]` iff a note is stored at `p` and `t` is one of its tags — and no
tag entry whose path set is empty remains. -/
theorem tag_index_exact (V : VaultM) (parse : String → ParsedLite)
    (ops : List IndexOp) :
    (∀ t p, (∃ s, (runOps V parse ops).tags t = some s ∧ p ∈ s) ↔
      (∃ n, (runOps V parse ops).notes p = some n ∧ t ∈ n.tags)) ∧
    (∀ t s, (runOps V parse ops).tags t = some s → s ≠ ∅) := by
  obtain ⟨h1, h2, h3⟩ := runOps_wf V parse ops
  refine ⟨?_, h3⟩
  intro t p
  have hgd : (∃ s, (runOps V parse ops).tags t = some s ∧ p ∈ s) ↔
      p ∈ ((runOps V parse ops).tags t).getD ∅ := by
    rcases hst : (runOps V parse ops).tags t with _ | s <;> simp
  rw [hgd, h2 t p, h1 p]
  rcases hnp : (runOps V parse ops).notes p with _ | n <;> simp

theorem upsert_file_second_delta (V : VaultM) (parse : String → ParsedLite)
    (S : IndexState) (p : VPath) (m sz : Nat) (c : String)
    (htags : S.file_tags p =
      some (noteDataOf (file_kind_from_path V p) (parse c)).1)
    (hlinks : S.file_links p =
      some (noteDataOf (file_kind_from_path V p) (parse c)).2.1) :
    (upsert_file V parse S p m sz c).2 = emptyDelta := by
  simp only [upsert_file, reconcile_tag_index, reconcile_link_index, htags,
    hlinks, Option.getD_some, Finset.sdiff_self]
  rfl

/-- **C5.** Two successive upserts of the same path over an unchanged file:
the second returns an empty `IndexDelta`. -/
theorem upsert_twice_empty_delta (V : VaultM) (parse : String → ParsedLite)
    (fs : Fs) (S : IndexState) (p : VPath) (m sz : Nat) (c : String)
    (hfs : fs p = .file m sz c) :
    (upsert_path V parse fs (upsert_path V parse fs S p).1 p).2 =
      Except.ok emptyDelta := by
  by_cases hind : ¬ (V.indexable p = true)
  · unfold upsert_path
    rw [if_pos hind]
  · unfold upsert_path
    rw [if_neg hind, hfs]
    dsimp only
    congr 1
    apply upsert_file_second_delta
    · rw [if_neg hind]
      dsimp only
      rw [upsert_file_eq]
      simp [upd]
    · rw [if_neg hind]
      dsimp only
      rw [upsert_file_eq]
      simp [upd]

theorem remove_path_fresh {S : IndexState} {p : VPath} (h : FreshPath S p) :
    (remove_path S p).1 = S := by
  obtain ⟨hf, hn, hft, hfl, htg⟩ := h
  rcases S with ⟨Sf, Sn, Sft, Sfl, Stg⟩
  simp only at hf hn hft hfl htg
  simp only [remove_path, IndexState.mk.injEq]
  refine ⟨?_, ?_, ?_, ?_, ?_⟩
  · funext q
    by_cases hq : q = p
    · subst hq; simp [upd, hf]
    · simp [upd, hq]
  · funext q
    by_cases hq : q = p
    · subst hq; simp [upd, hn]
    · simp [upd, hq]
  · funext q
    by_cases hq : q = p
    · subst hq; simp [upd, hft]
    · simp [upd, hq]
  · funext q
    by_cases hq : q = p
    · subst hq; simp [upd, hfl]
    · simp [upd, hq]
  · funext t
    rw [hft]
    simp

theorem erase_union_self {p : VPath} {s0 : Finset VPath} (hp : p ∉ s0) :
    (s0 ∪ {p}).erase p = s0 := by
  apply Finset.ext
  intro x
  simp only [Finset.mem_erase, Finset.mem_union, Finset.mem_singleton]
  constructor
  · rintro ⟨hne, hx | hx⟩
    · exact hx
    · exact absurd hx hne
  · intro hx
    exact ⟨fun he => hp (he ▸ hx), Or.inl hx⟩

/-- **C9 (amended).** For a path the index does not yet know, an upsert
followed immediately by a remove restores the exact pre-upsert state — file
metadata included. -/
theorem upsert_then_remove_restores (V : VaultM) (parse : String → ParsedLite)
    (fs : Fs) (S : IndexState) (p : VPath) (hfresh : FreshPath S p) :
    (remove_path (upsert_path V parse fs S p).1 p).1 = S := by
  by_cases hind : ¬ (V.indexable p = true)
  · unfold upsert_path
    rw [if_pos hind]
    exact remove_path_fresh hfresh
  · unfold upsert_path
    rw [if_neg hind]
    cases hfs : fs p with
    | missing => exact remove_path_fresh hfresh
    | dir => exact remove_path_fresh hfresh
    | file m sz c =>
      obtain ⟨hf, hn, hft, hfl, htg⟩ := hfresh
      show (remove_path (upsert_file V parse S p m sz c).1 p).1 = S
      rw [upsert_file_eq]
      rcases S with ⟨Sf, Sn, Sft, Sfl, Stg⟩
      simp only at hf hn hft hfl htg
      simp only [remove_path, upd, IndexState.mk.injEq, eq_self_iff_true,
        if_true, Option.getD_some]
      refine ⟨?_, ?_, ?_, ?_, ?_⟩
      · funext q
        by_cases hq : q = p
        · subst hq; simp [upd, hf]
        · simp [upd, hq]
      · funext q
        by_cases hq : q = p
        · subst hq; simp [upd, hn]
        · simp [upd, hq]
      · funext q
        by_cases hq : q = p
        · subst hq; simp [upd, hft]
        · simp [upd, hq]
      · funext q
        by_cases hq : q = p
        · subst hq; simp [upd, hfl]
        · simp [upd, hq]
      · funext t
        rw [hft]
        simp only [Option.getD_none, Finset.sdiff_empty, Finset.empty_sdiff,
          Finset.not_mem_empty, if_false]
        by_cases htn : t ∈ (noteDataOf (file_kind_from_path V p)
            (parse c)).1
        · rw [if_pos htn, if_pos htn]
          rcases hstg : Stg t with _ | s
          · dsimp only
            simp only [Option.getD_none]
            rw [show ((∅ : Finset VPath) ∪ {p}).erase p = ∅ from
              erase_union_self (by simp)]
            simp
          · dsimp only
            obtain ⟨hps, hse⟩ := htg t s hstg
            simp only [Option.getD_some]
            rw [erase_union_self hps]
            rw [if_neg hse]
        · rw [if_neg htn, if_neg htn]

/-- **C9 counterexample.** Starting from a state in which `a.md` is already
indexed with tag `t`, `upsert_path(a.md)` followed by `remove_path(a.md)`
does *not* restore the pre-upsert state even ignoring file metadata: the
note (and the `t` tag entry) are gone. -/
theorem upsert_remove_not_identity :
    ¬ eqUpToFileMeta
      ((remove_path (upsert_path vaultC parseC fsC stateC ["a.md"]).1
        ["a.md"]).1) stateC := by
  intro h
  have h1 := congrFun h.1 (["a.md"] : VPath)
  have hL : ((remove_path (upsert_path vaultC parseC fsC stateC ["a.md"]).1
      ["a.md"]).1).notes ["a.md"] = none := by decide
  have hR : stateC.notes ["a.md"] = some ⟨"T", ∅, {"t"}, ∅⟩ := by decide
  rw [hL, hR] at h1
  exact Option.noConfusion h1

theorem upsert_then_remove_restores_witness :
    FreshPath emptyIndex ["a.md"] ∧
    (remove_path (upsert_path vaultC parseC fsC emptyIndex ["a.md"]).1
      ["a.md"]).1 = emptyIndex := by
  have hfresh : FreshPath emptyIndex ["a.md"] :=
    ⟨rfl, rfl, rfl, rfl, fun t s h => Option.noConfusion h⟩
  exact ⟨hfresh,
    upsert_then_remove_restores vaultC parseC fsC emptyIndex ["a.md"] hfresh⟩

theorem upsert_twice_empty_delta_witness :
    fsC ["a.md"] = FsEntry.file 0 0 "x" ∧
    (upsert_path vaultC parseC fsC
      (upsert_path vaultC parseC fsC emptyIndex ["a.md"]).1 ["a.md"]).2 =
      Except.ok emptyDelta :=
  ⟨rfl, upsert_twice_empty_delta vaultC parseC fsC emptyIndex ["a.md"]
    0 0 "x" rfl⟩

/-- **C2.** When the file is missing on disk, the upsert op behaves exactly
as `remove_path p`: same resulting state, a `Removed` event whose delta
removes precisely the prior tags and links and adds nothing, no error
event; afterwards `p` carries no file, note, tag or link entry and sits in
no reverse tag entry. -/
theorem upsert_missing_behaves_as_remove (V : VaultM)
    (parse : String → ParsedLite) (fs : Fs) (S : IndexState) (p : VPath)
    (hwf : IndexWF S) (hmiss : fs p = .missing) :
    applyUpsertOp V parse fs S p =
      ((remove_path S p).1,
        some (.removed p ⟨∅, (S.file_tags p).getD ∅, ∅,
          (S.file_links p).getD ∅⟩)) ∧
    (applyUpsertOp V parse fs S p).1.files p = none ∧
    (applyUpsertOp V parse fs S p).1.notes p = none ∧
    (applyUpsertOp V parse fs S p).1.file_tags p = none ∧
    (applyUpsertOp V parse fs S p).1.file_links p = none ∧
    (∀ t s, (applyUpsertOp V parse fs S p).1.tags t = some s → p ∉ s) := by
  have hmain : applyUpsertOp V parse fs S p =
      ((remove_path S p).1, some (.removed p (remove_path S p).2)) := by
    unfold applyUpsertOp
    rw [hmiss]
  refine ⟨by rw [hmain]; rfl, ?_, ?_, ?_, ?_, ?_⟩
  · rw [hmain]; simp [remove_path, upd]
  · rw [hmain]; simp [remove_path, upd]
  · rw [hmain]; simp [remove_path, upd]
  · rw [hmain]; simp [remove_path, upd]
  · intro t s hts hmem
    rw [hmain] at hts
    obtain ⟨hwf1, hwf2, hwf3⟩ := remove_path_wf S p hwf
    have hpin : p ∈ ((remove_path S p).1.tags t).getD ∅ := by
      rw [hts]; simpa using hmem
    have : t ∈ ((remove_path S p).1.file_tags p).getD ∅ := (hwf2 t p).mp hpin
    rw [show (remove_path S p).1.file_tags p = none from by
      simp [remove_path, upd]] at this
    simpa using this

theorem upsert_missing_behaves_as_remove_witness :
    IndexWF emptyIndex ∧ fsMissing ["a.md"] = FsEntry.missing ∧
    (applyUpsertOp vaultC parseC fsMissing emptyIndex ["a.md"] =
      ((remove_path emptyIndex ["a.md"]).1,
        some (.removed ["a.md"]
          ⟨∅, (emptyIndex.file_tags ["a.md"]).getD ∅, ∅,
            (emptyIndex.file_links ["a.md"]).getD ∅⟩)) ∧
      (applyUpsertOp vaultC parseC fsMissing emptyIndex ["a.md"]).1.files
        ["a.md"] = none ∧
      (applyUpsertOp vaultC parseC fsMissing emptyIndex ["a.md"]).1.notes
        ["a.md"] = none ∧
      (applyUpsertOp vaultC parseC fsMissing emptyIndex
        ["a.md"]).1.file_tags ["a.md"] = none ∧
      (applyUpsertOp vaultC parseC fsMissing emptyIndex
        ["a.md"]).1.file_links ["a.md"] = none ∧
      (∀ t s, (applyUpsertOp vaultC parseC fsMissing emptyIndex
        ["a.md"]).1.tags t = some s → ["a.md"] ∉ s)) :=
  ⟨emptyIndex_wf, rfl,
    upsert_missing_behaves_as_remove vaultC parseC fsMissing emptyIndex
      ["a.md"] emptyIndex_wf rfl⟩

theorem linksLoop_issues (resolve : LinkTarget → VPath → ResolveResult)
    (source : VPath) (G : GraphIndex) (ls : List Link) :
    (linksLoop resolve source G ls).issues =
      G.issues ++ (outgoingOf resolve source ls).filter
        (fun i => nonResolvedB i.resolution) := by
  induction ls generalizing G with
  | nil => simp [linksLoop, outgoingOf]
  | cons l ls ih =>
    rw [linksLoop, ih]
    by_cases hint : isInternal l.target
    · cases hres : resolve l.target source with
      | Resolved t =>
        simp [classifyLink, hint, hres, outgoingOf, nonResolvedB,
          List.filter]
      | Ambiguous cs =>
        simp [classifyLink, hint, hres, outgoingOf, nonResolvedB,
          List.filter]
      | Missing =>
        simp [classifyLink, hint, hres, outgoingOf, nonResolvedB,
          List.filter]
    · simp [classifyLink, hint, outgoingOf, List.filter]

theorem linksLoop_inbound (resolve : LinkTarget → VPath → ResolveResult)
    (source : VPath) (G : GraphIndex) (ls : List Link) (t : VPath) :
    (linksLoop resolve source G ls).inbound t =
      G.inbound t ++ (outgoingOf resolve source ls).filterMap
        (inboundOf t) := by
  induction ls generalizing G with
  | nil => simp [linksLoop, outgoingOf]
  | cons l ls ih =>
    rw [linksLoop, ih]
    by_cases hint : isInternal l.target
    · cases hres : resolve l.target source with
      | Resolved q =>
        by_cases hq : t = q
        · subst hq
          simp [classifyLink, hint, hres, outgoingOf, inboundOf,
            List.filter]
        · simp [classifyLink, hint, hres, outgoingOf, inboundOf,
            List.filter, hq, Ne.symm hq]
      | Ambiguous cs =>
        simp [classifyLink, hint, hres, outgoingOf, inboundOf, List.filter]
      | Missing =>
        simp [classifyLink, hint, hres, outgoingOf, inboundOf, List.filter]
    · simp [classifyLink, hint, outgoingOf, List.filter]

theorem notesLoop_issues (resolve : LinkTarget → VPath → ResolveResult)
    (G : GraphIndex) (notes : List (VPath × List Link)) :
    (notesLoop resolve G notes).issues =
      G.issues ++ notes.flatMap (fun e =>
        (outgoingOf resolve e.1 e.2).filter
          (fun i => nonResolvedB i.resolution)) := by
  induction notes generalizing G with
  | nil => simp [notesLoop]
  | cons e rest ih =>
    rw [notesLoop, ih, linksLoop_issues]
    simp [List.append_assoc]

theorem notesLoop_inbound (resolve : LinkTarget → VPath → ResolveResult)
    (G : GraphIndex) (notes : List (VPath × List Link)) (t : VPath) :
    (notesLoop resolve G notes).inbound t =
      G.inbound t ++ notes.flatMap (fun e =>
        (outgoingOf resolve e.1 e.2).filterMap (inboundOf t)) := by
  induction notes generalizing G with
  | nil => simp [notesLoop]
  | cons e rest ih =>
    rw [notesLoop, ih, linksLoop_inbound]
    simp [List.append_assoc]

theorem outgoingOf_source {resolve : LinkTarget → VPath → ResolveResult}
    {source : VPath} {ls : List Link} {i : ResolvedInternalLink}
    (h : i ∈ outgoingOf resolve source ls) : i.source = source := by
  simp only [outgoingOf, List.mem_map, List.mem_filter] at h
  obtain ⟨l, _, rfl⟩ := h
  rfl

theorem inboundOf_source {t : VPath} {i : ResolvedInternalLink}
    {b : Backlink} (h : inboundOf t i = some b) : b.source = i.source := by
  unfold inboundOf at h
  split at h
  · split at h
    · cases h; rfl
    · exact Option.noConfusion h
  · exact Option.noConfusion h

theorem flatMap_filter_source (resolve : LinkTarget → VPath → ResolveResult)
    (notes : List (VPath × List Link)) (source : VPath)
    (hnd : (notes.map Prod.fst).Nodup) :
    (notes.flatMap (fun e => (outgoingOf resolve e.1 e.2).filter
        (fun i => nonResolvedB i.resolution))).filter
      (fun i => decide (i.source = source)) =
    (resolved_outgoing_internal_links notes resolve source).filter
      (fun i => nonResolvedB i.resolution) := by
  revert hnd
  induction notes with
  | nil =>
    intro _
    simp [resolved_outgoing_internal_links, lookupNote]
  | cons e rest ih =>
    intro hnd
    obtain ⟨src, ls⟩ := e
    simp only [List.map_cons, List.nodup_cons] at hnd
    obtain ⟨hsrc, hnd2⟩ := hnd
    rw [List.flatMap_cons, List.filter_append]
    by_cases hs : src = source
    · subst hs
      have hA : ((outgoingOf resolve src ls).filter
          (fun i => nonResolvedB i.resolution)).filter
          (fun i => decide (i.source = src)) =
          (outgoingOf resolve src ls).filter
            (fun i => nonResolvedB i.resolution) := by
        rw [List.filter_eq_self]
        intro i hi
        have hi2 := outgoingOf_source (List.mem_of_mem_filter hi)
        simp [hi2]
      have hB : ((rest.flatMap (fun e => (outgoingOf resolve e.1 e.2).filter
          (fun i => nonResolvedB i.resolution))).filter
          (fun i => decide (i.source = src))) = [] := by
        rw [List.filter_eq_nil_iff]
        intro i hi
        simp only [List.mem_flatMap] at hi
        obtain ⟨e, he, hie⟩ := hi
        have hisrc := outgoingOf_source (List.mem_of_mem_filter hie)
        simp only [decide_eq_true_eq]
        intro heq
        exact hsrc (heq ▸ hisrc ▸ List.mem_map_of_mem Prod.fst he)
      rw [hA, hB, List.append_nil]
      simp [resolved_outgoing_internal_links, lookupNote]
    · have hA : ((outgoingOf resolve src ls).filter
          (fun i => nonResolvedB i.resolution)).filter
          (fun i => decide (i.source = source)) = [] := by
        rw [List.filter_eq_nil_iff]
        intro i hi
        have hi2 := outgoingOf_source (List.mem_of_mem_filter hi)
        simp [hi2, hs]
      rw [hA, List.nil_append, ih hnd2]
      simp [resolved_outgoing_internal_links, lookupNote, hs]

theorem flatMap_filterMap_source
    (resolve : LinkTarget → VPath → ResolveResult)
    (notes : List (VPath × List Link)) (source t : VPath)
    (hnd : (notes.map Prod.fst).Nodup) :
    (notes.flatMap (fun e =>
        (outgoingOf resolve e.1 e.2).filterMap (inboundOf t))).filter
      (fun b => decide (b.source = source)) =
    (resolved_outgoing_internal_links notes resolve source).filterMap
      (inboundOf t) := by
  revert hnd
  induction notes with
  | nil =>
    intro _
    simp [resolved_outgoing_internal_links, lookupNote]
  | cons e rest ih =>
    intro hnd
    obtain ⟨src, ls⟩ := e
    simp only [List.map_cons, List.nodup_cons] at hnd
    obtain ⟨hsrc, hnd2⟩ := hnd
    rw [List.flatMap_cons, List.filter_append]
    by_cases hs : src = source
    · subst hs
      have hA : ((outgoingOf resolve src ls).filterMap
          (inboundOf t)).filter (fun b => decide (b.source = src)) =
          (outgoingOf resolve src ls).filterMap (inboundOf t) := by
        rw [List.filter_eq_self]
        intro b hb
        simp only [List.mem_filterMap] at hb
        obtain ⟨i, hi, hbi⟩ := hb
        have h1 := inboundOf_source hbi
        have h2 := outgoingOf_source hi
        simp [h1, h2]
      have hB : ((rest.flatMap (fun e =>
          (outgoingOf resolve e.1 e.2).filterMap (inboundOf t))).filter
          (fun b => decide (b.source = src))) = [] := by
        rw [List.filter_eq_nil_iff]
        intro b hb
        simp only [List.mem_flatMap, List.mem_filterMap] at hb
        obtain ⟨e, he, i, hi, hbi⟩ := hb
        have h1 := inboundOf_source hbi
        have h2 := outgoingOf_source hi
        simp only [decide_eq_true_eq]
        intro heq
        exact hsrc (heq ▸ h1 ▸ h2 ▸ List.mem_map_of_mem Prod.fst he)
      rw [hA, hB, List.append_nil]
      simp [resolved_outgoing_internal_links, lookupNote]
    · have hA : ((outgoingOf resolve src ls).filterMap
          (inboundOf t)).filter (fun b => decide (b.source = source)) =
          [] := by
        rw [List.filter_eq_nil_iff]
        intro b hb
        simp only [List.mem_filterMap] at hb
        obtain ⟨i, hi, hbi⟩ := hb
        have h1 := inboundOf_source hbi
        have h2 := outgoingOf_source hi
        simp [h1, h2, hs]
      rw [hA, List.nil_append, ih hnd2]
      simp [resolved_outgoing_internal_links, lookupNote, hs]

/-- **C4.** With note paths distinct, the graph builder classifies the
internal link occurrences of each `source` exactly as
`resolved_outgoing_internal_links source` does: its issues attributed to
`source` are (up to the final ordering pass) precisely that list's
non-`Resolved` entries, and its inbound backlinks of any target `t`
attributed to `source` are precisely the entries resolved to `t`. -/
theorem build_graph_matches_resolved_outgoing
    (notes : List (VPath × List Link))
    (resolve : LinkTarget → VPath → ResolveResult) (source t : VPath)
    (hnd : (notes.map Prod.fst).Nodup) :
    (((build_graph notes resolve).issues.filter
        (fun i => decide (i.source = source))).Perm
      ((resolved_outgoing_internal_links notes resolve source).filter
        (fun i => nonResolvedB i.resolution))) ∧
    ((((build_graph notes resolve).inbound t).filter
        (fun b => decide (b.source = source))).Perm
      ((resolved_outgoing_internal_links notes resolve source).filterMap
        (inboundOf t))) := by
  constructor
  · have hperm : ((build_graph notes resolve).issues).Perm
        ((notesLoop resolve emptyGraph notes).issues) := by
      simp only [build_graph]
      exact sortBy_perm _ _
    have h1 := hperm.filter (fun i => decide (i.source = source))
    rw [notesLoop_issues] at h1
    simp only [emptyGraph, List.nil_append] at h1
    rw [flatMap_filter_source resolve notes source hnd] at h1
    exact h1
  · have hperm : ((build_graph notes resolve).inbound t).Perm
        ((notesLoop resolve emptyGraph notes).inbound t) := by
      simp only [build_graph]
      exact sortBy_perm _ _
    have h1 := hperm.filter (fun b => decide (b.source = source))
    rw [notesLoop_inbound] at h1
    simp only [emptyGraph, List.nil_append] at h1
    rw [flatMap_filterMap_source resolve notes source t hnd] at h1
    exact h1

theorem build_graph_matches_resolved_outgoing_witness :
    (notesW.map Prod.fst).Nodup ∧
    ((((build_graph notesW resolveW).issues.filter
        (fun i => decide (i.source = ["a.md"]))).Perm
      ((resolved_outgoing_internal_links notesW resolveW ["a.md"]).filter
        (fun i => nonResolvedB i.resolution))) ∧
    ((((build_graph notesW resolveW).inbound ["b.md"]).filter
        (fun b => decide (b.source = ["a.md"]))).Perm
      ((resolved_outgoing_internal_links notesW resolveW
          ["a.md"]).filterMap (inboundOf ["b.md"])))) :=
  ⟨by decide,
    build_graph_matches_resolved_outgoing notesW resolveW ["a.md"] ["b.md"]
      (by decide)⟩

/-- **C10.** If the query trims to the empty string or the limit is `0`,
`search_filenames_fuzzy` returns `[]` and `search_content_fuzzy` returns
`Ok([])` — for every filesystem, so no file is read (and neither function
produces a new index state). -/
theorem search_fuzzy_early_return (files : List (VPath × FileMetaM))
    (scoreP : String → Option Nat) (pathStr : VPath → String)
    (scoreC : List Char → Option Nat) (query : String) (limit : Nat)
    (h : rustTrim query.data = [] ∨ limit = 0) :
    search_filenames_fuzzy files scoreP pathStr query limit = [] ∧
    ∀ fs : Fs, search_content_fuzzy files fs scoreC query limit =
      .ok [] := by
  constructor
  · unfold search_filenames_fuzzy
    rw [if_pos h]
  · intro fs
    unfold search_content_fuzzy
    rw [if_pos h]

theorem search_fuzzy_early_return_witness :
    (rustTrim ("  ".data) = [] ∨ 7 = 0) ∧
    (search_filenames_fuzzy [] (fun _ => none) (fun _ => "") "  " 7 = [] ∧
      ∀ fs : Fs, search_content_fuzzy [] fs (fun _ => none) "  " 7 =
        .ok []) :=
  ⟨by decide,
    search_fuzzy_early_return [] (fun _ => none) (fun _ => "")
      (fun _ => none) "  " 7 (by decide)⟩

end Oxidian
